import Mathlib

/-!
Verification development for the partial hash-aggregation operator
(`GroupByPartialTransform` in
`src/fusequery/query/src/pipelines/transforms/transform_groupby_partial.rs`).

The operator consumes a stream of columnar blocks, groups rows by the byte
encoding of their group-by values, feeds per-group gathered sub-blocks into
aggregate accumulators kept in a shared table, and finally drains the table
into a single output block.

Machine values are modelled as `Nat` (bytes are naturals, fixed-width
integers carry their byte width explicitly), columns as Lean lists, the hash
tables (`GroupIndicesTable`, `GroupFuncTable`) as insertion-ordered
association lists, and the fallible Rust `Result` plumbing as `Except`.

The file is organised as: data model and operation definitions first, then
all theorems.
-/

namespace GroupByPartial

/-- A scalar cell value of a data column, as far as group-by key encoding is
concerned: a null, a fixed-width integer (byte width `w`, value `v`), or a
variable-width byte string (UTF-8 or binary payload). -/
inductive DataValue where
  | null : DataValue
  | int (w : Nat) (v : Nat) : DataValue
  | str (s : List Nat) : DataValue
  deriving DecidableEq, Repr

/-- The (group-by relevant) column types: fixed-width integers of byte width
`w`, and variable-width strings/binaries. -/
inductive ColTy where
  | intTy (w : Nat) : ColTy
  | strTy : ColTy
  deriving DecidableEq, Repr

/-- A value is well typed for a column type: integers carry the column's
byte width and fit in it; string payload lengths fit the 4-byte length
prefixing used by the encoder; nulls inhabit every column type. -/
def ValTyped : ColTy → DataValue → Prop
  | _, .null => True
  | .intTy w, .int w' v => w' = w ∧ v < 256 ^ w
  | .intTy _, .str _ => False
  | .strTy, .int _ _ => False
  | .strTy, .str s => s.length < 256 ^ 4

instance : ∀ ty v, Decidable (ValTyped ty v) := fun ty v => by
  cases ty <;> cases v <;> simp only [ValTyped] <;> infer_instance

/-- Little-endian byte encoding of `v` in exactly `w` bytes. -/
def natToBytesLE : Nat → Nat → List Nat
  | 0, _ => []
  | w + 1, v => v % 256 :: natToBytesLE w (v / 256)

/-- Read back a little-endian byte list as a natural number. -/
def natOfBytesLE : List Nat → Nat
  | [] => 0
  | b :: bs => b + 256 * natOfBytesLE bs

/-- Modelled from the spec: the per-value byte encoding performed by
`DataValue::concat_row_to_one_key` (in `common_datavalues`, whose source is
not part of this excerpt).  Per §4.1 of the spec, fixed-width numeric values
are appended as their native byte width, non-fixed-width values get an
explicit length prefix followed by the raw bytes, and nulls encode to a
distinguished fixed marker distinct from any valid value encoding: here a
presence tag byte (`0` = null, `1` = value) followed by the value bytes. -/
def encodeValue : DataValue → List Nat
  | .null => [0]
  | .int w v => 1 :: natToBytesLE w v
  | .str s => 1 :: (natToBytesLE 4 s.length ++ s)

/-- Modelled from the spec: type-directed decoder for one encoded cell,
returning the decoded value and the remaining bytes.  Used only to prove
that `encodeValue` is prefix-determined (hence the row encoding injective). -/
def decodeValue : ColTy → List Nat → Option (DataValue × List Nat)
  | _, [] => none
  | ty, t :: rest =>
    if t = 0 then some (.null, rest)
    else
      match ty with
      | .intTy w =>
        if rest.length < w then none
        else some (.int w (natOfBytesLE (rest.take w)), rest.drop w)
      | .strTy =>
        if rest.length < 4 then none
        else
          let len := natOfBytesLE (rest.take 4)
          let rest2 := rest.drop 4
          if rest2.length < len then none
          else some (.str (rest2.take len), rest2.drop len)

/-- Cell of a column at a row index (columns are Lean lists; out-of-range
reads, which the well-formedness hypotheses rule out, default to null). -/
def colCell (col : List DataValue) (row : Nat) : DataValue :=
  col.getD row .null

/-- Mirrors the call `DataValue::concat_row_to_one_key(col, row, &mut group_key)`
(transform_groupby_partial.rs line 156): append the encoding of the row's
cell in `col` to the shared key buffer. -/
def concat_row_to_one_key (col : List DataValue) (row : Nat) (buf : List Nat) : List Nat :=
  buf ++ encodeValue (colCell col row)

/-- The group key of one row: the 1.2 loop body of `execute` folds
`concat_row_to_one_key` over the evaluated group columns into one buffer. -/
def rowKey (cols : List (List DataValue)) (row : Nat) : List Nat :=
  cols.foldl (fun buf col => concat_row_to_one_key col row buf) []

/-- The `group_values` tuple built next to the key (line 157):
`DataValue::try_from_array(col, row)` for each group column. -/
def rowValues (cols : List (List DataValue)) (row : Nat) : List DataValue :=
  cols.map (fun col => colCell col row)

/-- Byte encoding of a whole value tuple: concatenation of the per-value
encodings, in column order. -/
def encodeRow (vs : List DataValue) : List Nat :=
  (vs.map encodeValue).flatten

/-- A value tuple is well typed for a tuple of column types, position-wise. -/
def RowTyped : List ColTy → List DataValue → Prop
  | [], [] => True
  | ty :: tys, v :: vs => ValTyped ty v ∧ RowTyped tys vs
  | _, _ => False

instance : ∀ tys vs, Decidable (RowTyped tys vs) := fun tys vs => by
  induction tys generalizing vs with
  | nil => cases vs <;> simp only [RowTyped] <;> infer_instance
  | cons ty tys ih =>
    cases vs with
    | nil => simp only [RowTyped]; infer_instance
    | cons v vs =>
      simp only [RowTyped]
      exact @instDecidableAnd _ _ inferInstance (ih vs)

/-- An input `DataBlock`: named columns over a common row count. -/
structure Block where
  numRows : Nat
  columns : List (String × List DataValue)
  deriving DecidableEq, Repr

/-- A block is well formed when every column has exactly `numRows` cells. -/
def Block.WF (b : Block) : Prop :=
  ∀ c ∈ b.columns, c.2.length = b.numRows

instance : ∀ b : Block, Decidable b.WF := fun b => by
  unfold Block.WF; infer_instance

/-- The error values this operator can surface; the spec's taxonomy calls a
missing-column failure during evaluation/accumulation an EvalError. -/
inductive Err where
  | evalError (column : String) : Err
  deriving DecidableEq, Repr

/-- The column names of a block, in order. -/
def columnNames (b : Block) : List String :=
  b.columns.map (·.1)

/-- Mirrors `DataBlock::try_column_by_name` as used at lines 134, 191 and
208: look a column up by name, failing when it is absent. -/
def tryColumnByName (b : Block) (name : String) : Except Err (List DataValue) :=
  match b.columns.find? (fun c => c.1 == name) with
  | some c => .ok c.2
  | none => .error (.evalError name)

/-- Resolve a list of column names against a block in order, failing at the
first absent one: the shape of both the group-column evaluation loop
(lines 132-136) and the argument-column `collect::<Result<_>>` calls. -/
def resolveColumns (b : Block) : List String → Except Err (List (List DataValue))
  | [] => .ok []
  | n :: ns =>
    match tryColumnByName b n with
    | .error e => .error e
    | .ok c =>
      match resolveColumns b ns with
      | .error e => .error e
      | .ok cs => .ok (c :: cs)

/-- Total companion of `tryColumnByName`, used to state results about runs
in which every required column is present. -/
def colByNameD (b : Block) (name : String) : List DataValue :=
  match b.columns.find? (fun c => c.1 == name) with
  | some c => c.2
  | none => []

/-- Total companion of `resolveColumns`. -/
def groupColsD (b : Block) (names : List String) : List (List DataValue) :=
  names.map (colByNameD b)

/-- The local per-block table `GroupIndicesTable` (line 33):
group key → (row indices, key values), as an insertion-ordered
association list. -/
abbrev GroupIndicesTable := List (List Nat × (List Nat × List DataValue))

/-- Association-list lookup by key (the model of `HashMap::get`). -/
def lookupKey {α : Type} (m : List (List Nat × α)) (k : List Nat) : Option α :=
  (m.find? (fun e => e.1 == k)).map (·.2)

/-- One iteration of the 1.2 row loop (lines 151-169): compute the row's
key; on a miss insert a singleton index list with the row's values, on a
hit push the row index onto the existing entry. -/
def indicesInsert (m : GroupIndicesTable) (cols : List (List DataValue)) (row : Nat) :
    GroupIndicesTable :=
  match lookupKey m (rowKey cols row) with
  | none => m ++ [(rowKey cols row, ([row], rowValues cols row))]
  | some _ =>
    m.map (fun e => if e.1 == rowKey cols row then (e.1, (e.2.1 ++ [row], e.2.2)) else e)

/-- The whole 1.2 pass: fold the row loop over rows `0..numRows`. -/
def makeGroupIndices (cols : List (List DataValue)) (numRows : Nat) : GroupIndicesTable :=
  (List.range numRows).foldl (fun m row => indicesInsert m cols row) []

/-- The rows of `0..n` whose group key is `k`, in iteration order. -/
def rowsForKey (cols : List (List DataValue)) (n : Nat) (k : List Nat) : List Nat :=
  (List.range n).filter (fun r => rowKey cols r == k)

/-- Modelled from the spec: `DataBlock::block_take_by_indices` (in
`common_datablocks`, not part of this excerpt).  Per §4.3 VectorizedGather,
it returns a new block containing exactly the rows at `indices`, in that
order, all columns, so its row count is the index-list length and column
names/order are preserved. -/
def block_take_by_indices (b : Block) (indices : List Nat) : Block :=
  { numRows := indices.length
    columns := b.columns.map (fun c => (c.1, indices.map (fun i => colCell c.2 i))) }

/-- Row `r` of a block, as the tuple of its cells across all columns. -/
def blockRow (b : Block) (r : Nat) : List DataValue :=
  b.columns.map (fun c => colCell c.2 r)

/-- All rows of a block, in order. -/
def listRows (b : Block) : List (List DataValue) :=
  (List.range b.numRows).map (blockRow b)

/-- The aggregate-function capability consumed by the operator
(`expr.to_aggregate_function()` plus the stored column name and argument
names): a factory state `init`, a batch-accumulate step over resolved
argument columns and a row count, and the opaque serialization of the
accumulator result used at drain time
(`serde_json::to_string(&DataValue::Struct(accumulate_result()))`). -/
structure AggSpec (σ : Type) where
  name : String
  args : List String
  init : σ
  accumulate : σ → List (List DataValue) → Nat → σ
  result : σ → String

/-- One stored aggregate slot of a group entry, the model of the tuple
`(Box<dyn IAggreagteFunction>, String, Vec<String>)`: the function object
(behaviour, name, argument names) plus its mutable accumulator state. -/
structure AggSlot (σ : Type) where
  spec : AggSpec σ
  state : σ

/-- The contents of the shared `GroupFuncTable` (line 36):
group key → (aggregate slots, key values). -/
abbrev GroupFuncTable (σ : Type) := List (List Nat × (List (AggSlot σ) × List DataValue))

/-- Miss path of the upsert (lines 181-199): for each aggregate expression
in order, create a fresh accumulator, resolve its argument columns against
the gathered block, and feed it the block once. -/
def createSlots {σ : Type} (tb : Block) : List (AggSpec σ) → Except Err (List (AggSlot σ))
  | [] => .ok []
  | sp :: rest =>
    match resolveColumns tb sp.args with
    | .error e => .error e
    | .ok argCols =>
      match createSlots tb rest with
      | .error e => .error e
      | .ok slots => .ok (⟨sp, sp.accumulate sp.init argCols tb.numRows⟩ :: slots)

/-- Hit path of the upsert (lines 202-213): re-resolve each stored slot's
argument columns against the gathered block and accumulate into the
existing state. -/
def accumulateSlots {σ : Type} (tb : Block) : List (AggSlot σ) → Except Err (List (AggSlot σ))
  | [] => .ok []
  | sl :: rest =>
    match resolveColumns tb sl.spec.args with
    | .error e => .error e
    | .ok argCols =>
      match accumulateSlots tb rest with
      | .error e => .error e
      | .ok rest' => .ok (⟨sl.spec, sl.spec.accumulate sl.state argCols tb.numRows⟩ :: rest')

/-- Apply the hit path to the entry holding key `k` (the effect of
`groups.get_mut(&group_key)` returning `Some`), leaving every other entry
untouched. -/
def accumulateTable {σ : Type} (tb : Block) (k : List Nat) :
    GroupFuncTable σ → Except Err (GroupFuncTable σ)
  | [] => .ok []
  | (k', (slots, vals)) :: rest =>
    if k' == k then
      match accumulateSlots tb slots with
      | .error e => .error e
      | .ok slots' => .ok ((k', (slots', vals)) :: rest)
    else
      match accumulateTable tb k rest with
      | .error e => .error e
      | .ok rest' => .ok ((k', (slots, vals)) :: rest')

/-- One critical section of the 1.3 loop (lines 172-216): gather the
group's rows with `block_take_by_indices`, then under the write lock either
create the entry with freshly accumulated slots (miss) or accumulate into
the existing slots (hit). -/
def upsertGroup {σ : Type} (specs : List (AggSpec σ)) (b : Block)
    (groups : GroupFuncTable σ) (entry : List Nat × (List Nat × List DataValue)) :
    Except Err (GroupFuncTable σ) :=
  match lookupKey groups entry.1 with
  | none =>
    match createSlots (block_take_by_indices b entry.2.1) specs with
    | .error e => .error e
    | .ok slots => .ok (groups ++ [(entry.1, (slots, entry.2.2))])
  | some _ => accumulateTable (block_take_by_indices b entry.2.1) entry.1 groups

/-- The 1.3 loop over all local groups of one block, in insertion order. -/
def processGroups {σ : Type} (specs : List (AggSpec σ)) (b : Block)
    (groups : GroupFuncTable σ) :
    List (List Nat × (List Nat × List DataValue)) → Except Err (GroupFuncTable σ)
  | [] => .ok groups
  | e :: rest =>
    match upsertGroup specs b groups e with
    | .error err => .error err
    | .ok groups' => processGroups specs b groups' rest

/-- Process one input block (the body of the `while let` loop, lines
126-218): evaluate the group columns by name, build the local indices
table, then upsert every local group into the shared table. -/
def processBlock {σ : Type} (specs : List (AggSpec σ)) (groupNames : List String)
    (groups : GroupFuncTable σ) (b : Block) : Except Err (GroupFuncTable σ) :=
  match resolveColumns b groupNames with
  | .error e => .error e
  | .ok cols => processGroups specs b groups (makeGroupIndices cols b.numRows)

/-- The whole Streaming phase: fold `processBlock` over the input stream. -/
def processBlocks {σ : Type} (specs : List (AggSpec σ)) (groupNames : List String)
    (groups : GroupFuncTable σ) : List Block → Except Err (GroupFuncTable σ)
  | [] => .ok groups
  | b :: bs =>
    match processBlock specs groupNames groups b with
    | .error e => .error e
    | .ok groups' => processBlocks specs groupNames groups' bs

/-- Total companion of `resolveColumns` for argument columns. -/
def argColsD (tb : Block) (args : List String) : List (List DataValue) :=
  args.map (colByNameD tb)

/-- Total companion of `createSlots`. -/
def createSlotsD {σ : Type} (tb : Block) (specs : List (AggSpec σ)) : List (AggSlot σ) :=
  specs.map (fun sp => ⟨sp, sp.accumulate sp.init (argColsD tb sp.args) tb.numRows⟩)

/-- Total companion of `accumulateSlots`. -/
def accumulateSlotsD {σ : Type} (tb : Block) (slots : List (AggSlot σ)) : List (AggSlot σ) :=
  slots.map (fun sl =>
    ⟨sl.spec, sl.spec.accumulate sl.state (argColsD tb sl.spec.args) tb.numRows⟩)

/-- Whether any row of block `b` carries group key `k`. -/
def occursIn (names : List String) (b : Block) (k : List Nat) : Bool :=
  !(rowsForKey (groupColsD b names) b.numRows k).isEmpty

/-- The gathered sub-block of `b` holding exactly the rows with key `k`. -/
def takeForKey (names : List String) (b : Block) (k : List Nat) : Block :=
  block_take_by_indices b (rowsForKey (groupColsD b names) b.numRows k)

/-- The per-key contribution stream: for each input block in which `k`
occurs, the gathered sub-block of its `k`-rows, in stream order. -/
def contribBlocks (names : List String) (k : List Nat) (blocks : List Block) : List Block :=
  (blocks.filter (fun b => occursIn names b k)).map (fun b => takeForKey names b k)

/-- Reference semantics of one aggregate slot: fold the batch-accumulate
step over a stream of gathered sub-blocks, starting from the factory
state. -/
def slotFold {σ : Type} (sp : AggSpec σ) (tbs : List Block) : AggSlot σ :=
  ⟨sp, tbs.foldl (fun s tb => sp.accumulate s (argColsD tb sp.args) tb.numRows) sp.init⟩

/-- The key values of the first row (of the first block) carrying key `k`:
the tuple stored when the group entry was created. -/
def firstKeyValues (names : List String) (k : List Nat) : List Block → List DataValue
  | [] => []
  | b :: bs =>
    if occursIn names b k then
      rowValues (groupColsD b names) ((rowsForKey (groupColsD b names) b.numRows k).headD 0)
    else firstKeyValues names k bs

/-- Reference semantics of one shared-table entry after a stream of blocks:
absent when the key never occurs, otherwise one slot per aggregate
expression folded over the key's contribution stream, plus the creating
row's key values. -/
def modelEntry {σ : Type} (specs : List (AggSpec σ)) (names : List String)
    (k : List Nat) (blocks : List Block) : Option (List (AggSlot σ) × List DataValue) :=
  if (contribBlocks names k blocks).isEmpty then none
  else some (specs.map (fun sp => slotFold sp (contribBlocks names k blocks)),
    firstKeyValues names k blocks)

/-- Vertical concatenation of two blocks with positionally matching column
names: the single batch whose split into `b1; b2` the batch-size-invariance
property compares against. -/
def vconcat (b1 b2 : Block) : Block :=
  { numRows := b1.numRows + b2.numRows
    columns := List.zipWith (fun c1 c2 => (c1.1, c1.2 ++ c2.2)) b1.columns b2.columns }

/-- The field types appearing in the finalize schema. -/
inductive FieldTy where
  | utf8 : FieldTy
  | binary : FieldTy
  | structOf (inner : List (String × FieldTy × Bool)) : FieldTy
  | foreign (tag : String) : FieldTy

/-- A schema field (`DataField::new(name, data_type, nullable)`). -/
structure DataField where
  name : String
  ty : FieldTy
  nullable : Bool

/-- A group-by expression as the operator consumes it: the name of the
column holding its evaluated result (`expr.column_name()`), and its
`expr.to_data_field(&self.schema)` field. -/
structure GroupExpr where
  columnName : String
  field : DataField

/-- An output column of the finalize block: either a string column built by
a `StringBuilder` or the binary group-key column built by the
`BinaryBuilder`. -/
inductive OutColumn where
  | strCol (vals : List String) : OutColumn
  | binCol (vals : List (List Nat)) : OutColumn
  deriving DecidableEq, Repr

/-- The finalize output block: its declared schema and its columns. -/
structure OutBlock where
  schema : List DataField
  columns : List OutColumn

/-- View of a `DataField` as a `structOf` member. -/
def fieldInner (f : DataField) : String × FieldTy × Bool :=
  (f.name, f.ty, f.nullable)

/-- The schema fields the drain code builds (lines 237-262): the group
expressions' fields (lines 245-247), then one non-nullable Utf8 field per
aggregate slot of the first table entry (lines 249-254), then the
"_group_keys" struct of the group expressions' fields, then the
"_group_by_key" binary field. -/
def finalizeFields {σ : Type} (groupFields : List DataField)
    (groups : GroupFuncTable σ) : List DataField :=
  groupFields ++
    (match groups with
      | [] => []
      | (_, (funcs, _)) :: _ => funcs.map (fun sl => ⟨sl.spec.name, .utf8, false⟩)) ++
    [⟨"_group_keys", .structOf (groupFields.map fieldInner), false⟩,
      ⟨"_group_by_key", .binary, false⟩]

/-- String builder number `idx` of the drain loop (lines 264-281), read
column-wise: for each group entry in table order, the serialized state of
its `idx`-th aggregate slot. -/
def aggStateColumn {σ : Type} (groups : GroupFuncTable σ) (idx : Nat) : List String :=
  groups.map (fun e => (e.2.1.map (fun sl => sl.spec.result sl.state)).getD idx "")

/-- The output columns the drain code builds (lines 264-287): `aggr_len`
serialized-state string columns, then the serialized key-values string
column, then the raw group-key binary column.  (The source fills the same
builders row-major over the group entries; this is the resulting
column-major content.) -/
def finalizeColumns {σ : Type} (aggrLen : Nat) (serKeys : List DataValue → String)
    (groups : GroupFuncTable σ) : List OutColumn :=
  ((List.range aggrLen).map (fun idx => OutColumn.strCol (aggStateColumn groups idx))) ++
    [OutColumn.strCol (groups.map (fun e => serKeys e.2.2)),
      OutColumn.binCol (groups.map (fun e => e.1))]

/-- The result of `execute`: the schema handed to the output
`DataBlockStream` and the emitted blocks. -/
structure ExecOutput where
  streamSchema : List DataField
  blocks : List OutBlock

/-- The whole `execute` (lines 119-297): run the Streaming phase from an
empty table; if the table ended up empty return an empty-schema stream with
zero blocks (lines 220-226), otherwise drain the table into exactly one
block and return it on a stream carrying `self.schema` (lines 228-296).
`serKeys` is the opaque `serde_json` serialization of a key-values tuple. -/
def execute {σ : Type} (selfSchema : List DataField) (specs : List (AggSpec σ))
    (groupExprs : List GroupExpr) (serKeys : List DataValue → String)
    (input : List Block) : Except Err ExecOutput :=
  match processBlocks specs (groupExprs.map (·.columnName)) [] input with
  | .error e => .error e
  | .ok groups =>
    if groups.isEmpty then
      .ok ⟨[], []⟩
    else
      .ok ⟨selfSchema,
        [⟨finalizeFields (groupExprs.map (·.field)) groups,
          finalizeColumns specs.length serKeys groups⟩]⟩

/-- A COUNT(*) aggregate: state is a row counter. -/
def countSpec : AggSpec Nat :=
  { name := "count", args := [], init := 0,
    accumulate := fun s _ rows => s + rows,
    result := fun s => toString s }

/-! ## Theorems -/

theorem natToBytesLE_length (w v : Nat) : (natToBytesLE w v).length = w := by
  induction w generalizing v with
  | zero => rfl
  | succ w ih => simp [natToBytesLE, ih]

theorem natOfBytesLE_natToBytesLE (w v : Nat) (h : v < 256 ^ w) :
    natOfBytesLE (natToBytesLE w v) = v := by
  induction w generalizing v with
  | zero =>
    simp only [pow_zero, Nat.lt_one_iff] at h
    simp [natToBytesLE, natOfBytesLE, h]
  | succ w ih =>
    have hdiv : v / 256 < 256 ^ w := by
      rw [Nat.div_lt_iff_lt_mul (by norm_num)]
      calc v < 256 ^ (w + 1) := h
        _ = 256 ^ w * 256 := by ring
    simp [natToBytesLE, natOfBytesLE, ih _ hdiv, Nat.mod_add_div']
    omega

theorem take_length_append {α : Type} (l₁ l₂ : List α) :
    (l₁ ++ l₂).take l₁.length = l₁ := by
  induction l₁ with
  | nil => rfl
  | cons a l ih => simp [List.take, ih]

theorem drop_length_append {α : Type} (l₁ l₂ : List α) :
    (l₁ ++ l₂).drop l₁.length = l₂ := by
  induction l₁ with
  | nil => rfl
  | cons a l ih => simp [List.drop, ih]

theorem take_append_of_length {α : Type} {l₁ : List α} {n : Nat} (l₂ : List α)
    (h : l₁.length = n) : (l₁ ++ l₂).take n = l₁ := by
  subst h; exact take_length_append l₁ l₂

theorem drop_append_of_length {α : Type} {l₁ : List α} {n : Nat} (l₂ : List α)
    (h : l₁.length = n) : (l₁ ++ l₂).drop n = l₂ := by
  subst h; exact drop_length_append l₁ l₂

theorem decodeValue_encodeValue (ty : ColTy) (v : DataValue) (rest : List Nat)
    (h : ValTyped ty v) :
    decodeValue ty (encodeValue v ++ rest) = some (v, rest) := by
  cases v with
  | null => simp [encodeValue, decodeValue]
  | int w' x =>
    cases ty with
    | intTy w =>
      obtain ⟨rfl, hx⟩ := h
      have hlen : (natToBytesLE w' x).length = w' := natToBytesLE_length w' x
      simp only [encodeValue, List.cons_append, decodeValue]
      rw [if_neg (by norm_num), if_neg (by simp [hlen])]
      rw [take_append_of_length rest hlen, drop_append_of_length rest hlen]
      simp [natOfBytesLE_natToBytesLE w' x hx]
    | strTy => exact absurd h id
  | str s =>
    cases ty with
    | intTy w => exact absurd h id
    | strTy =>
      have hlen : (natToBytesLE 4 s.length).length = 4 := natToBytesLE_length 4 s.length
      simp only [encodeValue, List.cons_append, List.append_assoc, decodeValue]
      rw [if_neg (by norm_num), if_neg (by simp [hlen])]
      rw [take_append_of_length (s ++ rest) hlen, drop_append_of_length (s ++ rest) hlen]
      rw [natOfBytesLE_natToBytesLE 4 s.length h]
      rw [if_neg (by simp)]
      rw [take_length_append, drop_length_append]

theorem rowKey_eq_encodeRow (cols : List (List DataValue)) (row : Nat) :
    rowKey cols row = encodeRow (rowValues cols row) := by
  suffices h : ∀ init : List Nat,
      cols.foldl (fun buf col => concat_row_to_one_key col row buf) init =
        init ++ encodeRow (rowValues cols row) by
    simpa using h []
  induction cols with
  | nil => intro init; simp [encodeRow, rowValues]
  | cons c cs ih =>
    intro init
    rw [List.foldl_cons, ih]
    simp [encodeRow, rowValues, concat_row_to_one_key, List.append_assoc]

theorem encodeRow_append_inj (tys : List ColTy) :
    ∀ (r1 r2 : List DataValue) (rest1 rest2 : List Nat),
      RowTyped tys r1 → RowTyped tys r2 →
      encodeRow r1 ++ rest1 = encodeRow r2 ++ rest2 → r1 = r2 ∧ rest1 = rest2 := by
  induction tys with
  | nil =>
    intro r1 r2 rest1 rest2 h1 h2 heq
    cases r1 with
    | nil =>
      cases r2 with
      | nil => simpa [encodeRow] using heq
      | cons v vs => exact absurd h2 id
    | cons v vs => exact absurd h1 id
  | cons ty tys ih =>
    intro r1 r2 rest1 rest2 h1 h2 heq
    cases r1 with
    | nil => exact absurd h1 id
    | cons v1 vs1 =>
      cases r2 with
      | nil => exact absurd h2 id
      | cons v2 vs2 =>
        obtain ⟨hv1, hvs1⟩ := h1
        obtain ⟨hv2, hvs2⟩ := h2
        have heq' : encodeValue v1 ++ (encodeRow vs1 ++ rest1) =
            encodeValue v2 ++ (encodeRow vs2 ++ rest2) := by
          simpa [encodeRow, List.append_assoc] using heq
        have hdec := decodeValue_encodeValue ty v1 (encodeRow vs1 ++ rest1) hv1
        rw [heq', decodeValue_encodeValue ty v2 (encodeRow vs2 ++ rest2) hv2] at hdec
        obtain ⟨hveq, htail⟩ := Prod.mk.injEq .. ▸ Option.some.injEq .. ▸ hdec
        obtain ⟨hvs, hrest⟩ := ih vs1 vs2 rest1 rest2 hvs1 hvs2 htail.symm
        exact ⟨by rw [hveq.symm, hvs], hrest⟩

/-- C1: for two rows of the same group-by column set whose value tuples are
well typed, the encoded group keys are byte-identical exactly when the
ordered value tuples (null-ness included) are equal: the encoding is
injective, with no false collisions across heterogeneous column
combinations. -/
theorem c1_group_key_injective (tys : List ColTy) (cols : List (List DataValue))
    (r1 r2 : Nat) (h1 : RowTyped tys (rowValues cols r1))
    (h2 : RowTyped tys (rowValues cols r2)) :
    rowKey cols r1 = rowKey cols r2 ↔ rowValues cols r1 = rowValues cols r2 := by
  rw [rowKey_eq_encodeRow, rowKey_eq_encodeRow]
  constructor
  · intro h
    have := encodeRow_append_inj tys (rowValues cols r1) (rowValues cols r2) [] [] h1 h2
      (by simpa using h)
    exact this.1
  · intro h; rw [h]

/-- Witness for C1 at a concrete input: one int column and one string
column; rows 0 and 1 agree on the int column but differ on the string
column, and indeed their keys differ; the typing hypotheses hold. -/
theorem c1_group_key_injective_witness :
    (RowTyped [ColTy.intTy 1, ColTy.strTy]
        (rowValues [[DataValue.int 1 5, DataValue.int 1 5, DataValue.int 1 5],
          [DataValue.str [97], DataValue.str [97, 98], DataValue.str [97]]] 0) ∧
      RowTyped [ColTy.intTy 1, ColTy.strTy]
        (rowValues [[DataValue.int 1 5, DataValue.int 1 5, DataValue.int 1 5],
          [DataValue.str [97], DataValue.str [97, 98], DataValue.str [97]]] 1)) ∧
      ¬ rowKey [[DataValue.int 1 5, DataValue.int 1 5, DataValue.int 1 5],
          [DataValue.str [97], DataValue.str [97, 98], DataValue.str [97]]] 0 =
        rowKey [[DataValue.int 1 5, DataValue.int 1 5, DataValue.int 1 5],
          [DataValue.str [97], DataValue.str [97, 98], DataValue.str [97]]] 1 := by
  refine ⟨⟨by decide, by decide⟩, ?_⟩
  rw [c1_group_key_injective [ColTy.intTy 1, ColTy.strTy] _ 0 1 (by decide) (by decide)]
  decide

theorem lookupKey_cons {α : Type} (e : List Nat × α) (m : List (List Nat × α)) (k : List Nat) :
    lookupKey (e :: m) k = if e.1 == k then some e.2 else lookupKey m k := by
  by_cases h : e.1 == k <;> simp [lookupKey, List.find?_cons, h]

theorem lookupKey_append_single_hit {α : Type} (m : List (List Nat × α)) (k : List Nat)
    (x : α) (h : lookupKey m k = none) : lookupKey (m ++ [(k, x)]) k = some x := by
  induction m with
  | nil => simp [lookupKey, List.find?]
  | cons e rest ih =>
    rw [List.cons_append, lookupKey_cons]
    rw [lookupKey_cons] at h
    by_cases he : e.1 == k
    · rw [if_pos he] at h; exact absurd h (by simp)
    · rw [if_neg he] at h; rw [if_neg he]; exact ih h

theorem lookupKey_append_single_other {α : Type} (m : List (List Nat × α)) (k k' : List Nat)
    (x : α) (h : ¬ k' = k) : lookupKey (m ++ [(k, x)]) k' = lookupKey m k' := by
  induction m with
  | nil =>
    have hb : (k == k') = false := beq_eq_false_iff_ne.mpr (fun hh => h hh.symm)
    simp [lookupKey, List.find?, hb]
  | cons e rest ih =>
    rw [List.cons_append, lookupKey_cons, lookupKey_cons]
    by_cases he : e.1 == k' <;> simp [he, ih]

theorem lookupKey_pushRow (m : GroupIndicesTable) (key : List Nat) (row : Nat)
    (k' : List Nat) :
    lookupKey (m.map (fun e => if e.1 == key then (e.1, (e.2.1 ++ [row], e.2.2)) else e)) k' =
      if k' = key then (lookupKey m k').map (fun p => (p.1 ++ [row], p.2))
      else lookupKey m k' := by
  induction m with
  | nil => by_cases h : k' = key <;> simp [lookupKey, h]
  | cons e rest ih =>
    by_cases hek : (e.1 : List Nat) = key
    · rw [List.map_cons, if_pos (beq_iff_eq.mpr hek), lookupKey_cons, lookupKey_cons]
      by_cases hq : (e.1 : List Nat) = k'
      · have hq' : k' = key := by rw [← hq, hek]
        rw [if_pos (beq_iff_eq.mpr hq), if_pos (beq_iff_eq.mpr hq), if_pos hq']
        rfl
      · have hb : ((e.1 : List Nat) == k') = false := by simpa using hq
        have h0 : ¬ (false = true) := by simp
        rw [hb, if_neg h0, if_neg h0, ih]
    · rw [List.map_cons, if_neg (by simpa using hek), lookupKey_cons, lookupKey_cons]
      by_cases hq : (e.1 : List Nat) = k'
      · have hq' : ¬ k' = key := fun hc => hek (by rw [hq, hc])
        rw [if_pos (beq_iff_eq.mpr hq), if_pos (beq_iff_eq.mpr hq), if_neg hq']
      · have hb : ((e.1 : List Nat) == k') = false := by simpa using hq
        have h0 : ¬ (false = true) := by simp
        rw [hb, if_neg h0, if_neg h0, ih]

theorem lookupKey_indicesInsert (m : GroupIndicesTable) (cols : List (List DataValue))
    (row : Nat) (k : List Nat) :
    lookupKey (indicesInsert m cols row) k =
      if k = rowKey cols row then
        match lookupKey m k with
        | none => some ([row], rowValues cols row)
        | some (l, vs) => some (l ++ [row], vs)
      else lookupKey m k := by
  by_cases hk : k = rowKey cols row
  · subst hk
    rw [if_pos rfl]
    cases hm : lookupKey m (rowKey cols row) with
    | none =>
      simp only [indicesInsert, hm]
      exact lookupKey_append_single_hit m _ _ hm
    | some x =>
      simp only [indicesInsert, hm]
      rw [lookupKey_pushRow m (rowKey cols row) row (rowKey cols row), if_pos rfl, hm]
      cases x with
      | mk l vs => rfl
  · rw [if_neg hk]
    cases hm : lookupKey m (rowKey cols row) with
    | none =>
      simp only [indicesInsert, hm]
      exact lookupKey_append_single_other m _ k _ hk
    | some x =>
      simp only [indicesInsert, hm]
      rw [lookupKey_pushRow m (rowKey cols row) row k, if_neg hk]

theorem makeGroupIndices_succ (cols : List (List DataValue)) (n : Nat) :
    makeGroupIndices cols (n + 1) = indicesInsert (makeGroupIndices cols n) cols n := by
  unfold makeGroupIndices
  rw [List.range_succ, List.foldl_append]
  rfl

theorem rowsForKey_succ (cols : List (List DataValue)) (n : Nat) (k : List Nat) :
    rowsForKey cols (n + 1) k =
      rowsForKey cols n k ++ (if rowKey cols n = k then [n] else []) := by
  unfold rowsForKey
  rw [List.range_succ, List.filter_append]
  by_cases h : rowKey cols n = k <;> simp [h]

theorem makeGroupIndices_lookup (cols : List (List DataValue)) (n : Nat) (k : List Nat) :
    lookupKey (makeGroupIndices cols n) k =
      match rowsForKey cols n k with
      | [] => none
      | r :: rs => some (r :: rs, rowValues cols r) := by
  induction n with
  | zero => rfl
  | succ n ih =>
    rw [makeGroupIndices_succ, lookupKey_indicesInsert, rowsForKey_succ, ih]
    by_cases hk : k = rowKey cols n
    · rw [if_pos hk, if_pos hk.symm]
      cases hr : rowsForKey cols n k with
      | nil => simp
      | cons r rs => simp
    · rw [if_neg hk, if_neg (fun hc => hk hc.symm), List.append_nil]

/-- C7: the block grouper's single pass over rows `0..n` (encode the row's
key; on a miss insert a singleton index list together with the row's key
values; on a hit append the row index) produces a local map sending each
key to exactly the in-iteration-order list of rows carrying that key,
paired with the key values of the first such row, and no other keys. -/
theorem c7_block_grouper_map (cols : List (List DataValue)) (n : Nat) (k : List Nat) :
    lookupKey (makeGroupIndices cols n) k =
      match (List.range n).filter (fun r => rowKey cols r == k) with
      | [] => none
      | r :: rs => some (r :: rs, rowValues cols r) := by
  rw [makeGroupIndices_lookup]; rfl

theorem listRows_take (b : Block) (l : List Nat) :
    listRows (block_take_by_indices b l) = l.map (blockRow b) := by
  unfold listRows block_take_by_indices blockRow
  apply List.ext_getElem
  · simp
  · intro i h1 h2
    simp only [List.getElem_map, List.getElem_range, List.map_map]
    simp only [List.length_map, List.length_range] at h1
    have hi : i < l.length := by simpa using h2
    apply List.map_congr_left
    intro c _
    simp only [Function.comp]
    show colCell (l.map (fun j => colCell c.2 j)) i = colCell c.2 l[i]
    simp [colCell, List.getD, List.getElem?_map, List.getElem?_eq_getElem hi]

/-- C10: every index list stored by the block grouper is strictly
increasing (indices are appended in iteration order over `0..n`), and hence
the gathered sub-block produced by `block_take_by_indices` presents the
group's rows as an in-order sublist of the original block's rows. -/
theorem c10_indices_increasing (cols : List (List DataValue)) (n : Nat) (k : List Nat)
    (l : List Nat) (vs : List DataValue)
    (h : lookupKey (makeGroupIndices cols n) k = some (l, vs)) :
    l.Pairwise (· < ·) ∧
      ∀ b : Block, b.numRows = n →
        (listRows (block_take_by_indices b l)).Sublist (listRows b) := by
  have hl : l = rowsForKey cols n k := by
    rw [makeGroupIndices_lookup] at h
    cases hr : rowsForKey cols n k with
    | nil => rw [hr] at h; exact absurd h (by simp)
    | cons r rs =>
      rw [hr] at h
      injection h with h'
      exact (congrArg Prod.fst h').symm
  have hsub : l.Sublist (List.range n) := by
    rw [hl]; exact List.filter_sublist _
  constructor
  · exact (List.pairwise_lt_range n).sublist hsub
  · intro b hb
    rw [listRows_take, listRows, hb]
    exact hsub.map (blockRow b)

/-- Witness for C10: a one-column block whose rows 0 and 2 share a group
key; the stored index list [0, 2] is increasing and the gathered rows are a
sublist of the block's rows. -/
theorem c10_indices_increasing_witness :
    List.Pairwise (· < ·) [0, 2] ∧
      (listRows (block_take_by_indices
          ⟨3, [("a", [DataValue.int 1 0, DataValue.int 1 1, DataValue.int 1 0])]⟩
          [0, 2])).Sublist
        (listRows ⟨3, [("a", [DataValue.int 1 0, DataValue.int 1 1, DataValue.int 1 0])]⟩) := by
  have h := c10_indices_increasing
    [[DataValue.int 1 0, DataValue.int 1 1, DataValue.int 1 0]] 3
    (rowKey [[DataValue.int 1 0, DataValue.int 1 1, DataValue.int 1 0]] 0)
    [0, 2] (rowValues [[DataValue.int 1 0, DataValue.int 1 1, DataValue.int 1 0]] 0)
    (by decide)
  exact ⟨h.1, h.2 ⟨3, [("a", [DataValue.int 1 0, DataValue.int 1 1, DataValue.int 1 0])]⟩ rfl⟩

theorem tryColumnByName_ok {b : Block} {n : String} {c : List DataValue}
    (h : tryColumnByName b n = .ok c) : c = colByNameD b n := by
  unfold tryColumnByName at h
  unfold colByNameD
  cases hf : b.columns.find? (fun col => col.1 == n) with
  | none => rw [hf] at h; exact absurd h (by simp)
  | some e => rw [hf] at h; injection h with h'; exact h'.symm

theorem tryColumnByName_of_mem {b : Block} {n : String} (h : n ∈ columnNames b) :
    tryColumnByName b n = .ok (colByNameD b n) := by
  unfold tryColumnByName colByNameD
  cases hf : b.columns.find? (fun col => col.1 == n) with
  | none =>
    exfalso
    obtain ⟨c, hc, hcn⟩ := List.mem_map.mp h
    exact (List.find?_eq_none.mp hf c hc) (beq_iff_eq.mpr hcn)
  | some e => rfl

theorem resolveColumns_ok {b : Block} : ∀ {ns : List String} {cs : List (List DataValue)},
    resolveColumns b ns = .ok cs → cs = groupColsD b ns := by
  intro ns
  induction ns with
  | nil =>
    intro cs h
    simp only [resolveColumns] at h
    injection h with h'
    rw [← h']; rfl
  | cons n ns ih =>
    intro cs h
    simp only [resolveColumns] at h
    cases hc : tryColumnByName b n with
    | error e => rw [hc] at h; exact absurd h (by simp)
    | ok c =>
      rw [hc] at h
      cases hr : resolveColumns b ns with
      | error e => rw [hr] at h; exact absurd h (by simp)
      | ok cs' =>
        rw [hr] at h
        injection h with h'
        rw [← h', tryColumnByName_ok hc, ih hr]
        rfl

theorem resolveColumns_of_mem {b : Block} : ∀ {ns : List String},
    (∀ n ∈ ns, n ∈ columnNames b) → resolveColumns b ns = .ok (groupColsD b ns) := by
  intro ns
  induction ns with
  | nil => intro _; rfl
  | cons n ns ih =>
    intro h
    simp only [resolveColumns]
    rw [tryColumnByName_of_mem (h n (by simp)), ih (fun m hm => h m (by simp [hm]))]
    rfl

theorem createSlots_ok {σ : Type} {tb : Block} :
    ∀ {specs : List (AggSpec σ)} {slots : List (AggSlot σ)},
      createSlots tb specs = .ok slots → slots = createSlotsD tb specs := by
  intro specs
  induction specs with
  | nil =>
    intro slots h
    simp only [createSlots] at h
    injection h with h'
    rw [← h']; rfl
  | cons sp rest ih =>
    intro slots h
    simp only [createSlots] at h
    cases hc : resolveColumns tb sp.args with
    | error e => rw [hc] at h; exact absurd h (by simp)
    | ok argCols =>
      rw [hc] at h
      cases hr : createSlots tb rest with
      | error e => rw [hr] at h; exact absurd h (by simp)
      | ok slots' =>
        rw [hr] at h
        injection h with h'
        rw [← h', resolveColumns_ok hc, ih hr]
        rfl

theorem accumulateSlots_ok {σ : Type} {tb : Block} :
    ∀ {slots slots' : List (AggSlot σ)},
      accumulateSlots tb slots = .ok slots' → slots' = accumulateSlotsD tb slots := by
  intro slots
  induction slots with
  | nil =>
    intro slots' h
    simp only [accumulateSlots] at h
    injection h with h'
    rw [← h']; rfl
  | cons sl rest ih =>
    intro slots' h
    simp only [accumulateSlots] at h
    cases hc : resolveColumns tb sl.spec.args with
    | error e => rw [hc] at h; exact absurd h (by simp)
    | ok argCols =>
      rw [hc] at h
      cases hr : accumulateSlots tb rest with
      | error e => rw [hr] at h; exact absurd h (by simp)
      | ok rest' =>
        rw [hr] at h
        injection h with h'
        rw [← h', resolveColumns_ok hc, ih hr]
        rfl

theorem accumulateTable_ok_lookup {σ : Type} {tb : Block} {k : List Nat} :
    ∀ {g g' : GroupFuncTable σ}, accumulateTable tb k g = .ok g' →
      ∀ k', lookupKey g' k' =
        if k' = k then
          (lookupKey g k').map (fun p => (accumulateSlotsD tb p.1, p.2))
        else lookupKey g k' := by
  intro g
  induction g with
  | nil =>
    intro g' h k'
    simp only [accumulateTable] at h
    injection h with h'
    rw [← h']
    by_cases hk : k' = k <;> simp [lookupKey, hk]
  | cons e rest ih =>
    intro g' h k'
    obtain ⟨ke, slots, vals⟩ := e
    simp only [accumulateTable] at h
    by_cases hke : (ke : List Nat) = k
    · rw [if_pos (beq_iff_eq.mpr hke)] at h
      cases hs : accumulateSlots tb slots with
      | error err => rw [hs] at h; exact absurd h (by simp)
      | ok slots' =>
        rw [hs] at h
        injection h with h'
        rw [← h', lookupKey_cons]
        by_cases hq : (ke : List Nat) = k'
        · have hfull : k' = k := by rw [← hq, hke]
          have hb : (((ke, slots', vals).1 : List Nat) == k') = true := by simpa using hq
          have hb2 : (((ke, slots, vals).1 : List Nat) == k') = true := by simpa using hq
          rw [if_pos hb, if_pos hfull, lookupKey_cons, if_pos hb2, accumulateSlots_ok hs]
          rfl
        · have hne : ¬ k' = k := fun hc => hq (by rw [hke, ← hc])
          have hb : ¬ ((((ke, slots', vals).1 : List Nat) == k') = true) := by simpa using hq
          have hb2 : ¬ ((((ke, slots, vals).1 : List Nat) == k') = true) := by simpa using hq
          rw [if_neg hb, if_neg hne, lookupKey_cons, if_neg hb2]
    · rw [if_neg (by simpa using hke)] at h
      cases hr : accumulateTable tb k rest with
      | error err => rw [hr] at h; exact absurd h (by simp)
      | ok rest' =>
        rw [hr] at h
        injection h with h'
        rw [← h', lookupKey_cons]
        by_cases hq : (ke : List Nat) = k'
        · have hne : ¬ k' = k := fun hc => hke (by rw [hq, hc])
          have hb : (((ke, slots, vals).1 : List Nat) == k') = true := by simpa using hq
          rw [if_pos hb, if_neg hne, lookupKey_cons, if_pos hb]
        · have hb : ¬ ((((ke, slots, vals).1 : List Nat) == k') = true) := by simpa using hq
          rw [if_neg hb, ih hr k']
          by_cases hq2 : k' = k
          · rw [if_pos hq2, if_pos hq2, lookupKey_cons, if_neg hb]
          · rw [if_neg hq2, if_neg hq2, lookupKey_cons, if_neg hb]

theorem accumulateTable_ok_keys {σ : Type} {tb : Block} {k : List Nat} :
    ∀ {g g' : GroupFuncTable σ}, accumulateTable tb k g = .ok g' →
      g'.map (·.1) = g.map (·.1) := by
  intro g
  induction g with
  | nil =>
    intro g' h
    simp only [accumulateTable] at h
    injection h with h'
    rw [← h']
  | cons e rest ih =>
    intro g' h
    obtain ⟨ke, slots, vals⟩ := e
    simp only [accumulateTable] at h
    by_cases hke : (ke : List Nat) = k
    · rw [if_pos (beq_iff_eq.mpr hke)] at h
      cases hs : accumulateSlots tb slots with
      | error err => rw [hs] at h; exact absurd h (by simp)
      | ok slots' =>
        rw [hs] at h
        injection h with h'
        rw [← h']
        rfl
    · rw [if_neg (by simpa using hke)] at h
      cases hr : accumulateTable tb k rest with
      | error err => rw [hr] at h; exact absurd h (by simp)
      | ok rest' =>
        rw [hr] at h
        injection h with h'
        rw [← h']
        simp [ih hr]

theorem lookupKey_eq_none_iff {α : Type} (m : List (List Nat × α)) (k : List Nat) :
    lookupKey m k = none ↔ ¬ k ∈ m.map (·.1) := by
  induction m with
  | nil => simp [lookupKey]
  | cons e rest ih =>
    rw [lookupKey_cons]
    by_cases he : (e.1 : List Nat) = k
    · simp [he]
    · have hb : ¬ (((e.1 : List Nat) == k) = true) := by simpa using he
      rw [if_neg hb, List.map_cons]
      simp only [List.mem_cons, ih]
      constructor
      · intro hn hc
        rcases hc with hc | hc
        · exact he hc.symm
        · exact hn hc
      · intro hn
        exact fun hc => hn (Or.inr hc)

theorem lookupKey_of_mem_nodup {α : Type} :
    ∀ {m : List (List Nat × α)}, (m.map (·.1)).Nodup →
      ∀ {k : List Nat} {x : α}, (k, x) ∈ m → lookupKey m k = some x := by
  intro m
  induction m with
  | nil => intro _ k x hm; cases hm
  | cons e rest ih =>
    intro hnd k x hm
    rw [List.map_cons, List.nodup_cons] at hnd
    rw [lookupKey_cons]
    rcases List.mem_cons.mp hm with he | he
    · rw [← he]
      simp
    · by_cases hek : (e.1 : List Nat) = k
      · exfalso
        exact hnd.1 (hek ▸ List.mem_map.mpr ⟨(k, x), he, rfl⟩)
      · rw [if_neg (by simpa using hek)]
        exact ih hnd.2 he

theorem find?_entry_of_lookup_none {α : Type} {m : List (List Nat × α)} {k : List Nat}
    (h : lookupKey m k = none) : m.find? (fun e => e.1 == k) = none := by
  unfold lookupKey at h
  exact Option.map_eq_none.mp h

theorem find?_entry_of_lookup_some {α : Type} {m : List (List Nat × α)} {k : List Nat}
    {x : α} (h : lookupKey m k = some x) : m.find? (fun e => e.1 == k) = some (k, x) := by
  unfold lookupKey at h
  cases hf : m.find? (fun e => e.1 == k) with
  | none => rw [hf] at h; exact absurd h (by simp)
  | some e =>
    rw [hf] at h
    have hp := List.find?_some hf
    have he1 : e.1 = k := beq_iff_eq.mp hp
    have he2 : e.2 = x := by simpa using h
    rw [← he1, ← he2]

theorem keys_indicesInsert (m : GroupIndicesTable) (cols : List (List DataValue)) (row : Nat) :
    (indicesInsert m cols row).map (·.1) =
      if (lookupKey m (rowKey cols row)).isSome then m.map (·.1)
      else m.map (·.1) ++ [rowKey cols row] := by
  cases hm : lookupKey m (rowKey cols row) with
  | none => simp only [indicesInsert, hm]; simp
  | some x =>
    simp only [indicesInsert, hm, Option.isSome_some, if_pos]
    rw [List.map_map]
    apply List.map_congr_left
    intro e _
    by_cases he : (e.1 : List Nat) = rowKey cols row <;> simp [he]

theorem nodupKeys_indicesInsert (m : GroupIndicesTable) (cols : List (List DataValue))
    (row : Nat) (hnd : (m.map (·.1)).Nodup) :
    ((indicesInsert m cols row).map (·.1)).Nodup := by
  rw [keys_indicesInsert]
  cases hm : lookupKey m (rowKey cols row) with
  | some x => simpa using hnd
  | none =>
    have hnotmem : ¬ rowKey cols row ∈ m.map (·.1) := (lookupKey_eq_none_iff m _).mp hm
    simp [List.nodup_append, hnd, hnotmem]

theorem nodupKeys_makeGroupIndices (cols : List (List DataValue)) (n : Nat) :
    ((makeGroupIndices cols n).map (·.1)).Nodup := by
  induction n with
  | zero => simp [makeGroupIndices]
  | succ n ih => rw [makeGroupIndices_succ]; exact nodupKeys_indicesInsert _ cols n ih

theorem upsertGroup_ok_lookup {σ : Type} {specs : List (AggSpec σ)} {b : Block}
    {t t' : GroupFuncTable σ} {e : List Nat × (List Nat × List DataValue)}
    (h : upsertGroup specs b t e = .ok t') :
    ∀ k', lookupKey t' k' =
      if k' = e.1 then
        match lookupKey t e.1 with
        | none => some (createSlotsD (block_take_by_indices b e.2.1) specs, e.2.2)
        | some (slots, vals) =>
          some (accumulateSlotsD (block_take_by_indices b e.2.1) slots, vals)
      else lookupKey t k' := by
  intro k'
  cases hm : lookupKey t e.1 with
  | none =>
    simp only [upsertGroup, hm] at h
    cases hc : createSlots (block_take_by_indices b e.2.1) specs with
    | error err => rw [hc] at h; exact absurd h (by simp)
    | ok slots =>
      rw [hc] at h
      injection h with h'
      rw [← h']
      by_cases hk : k' = e.1
      · subst hk
        rw [if_pos rfl, lookupKey_append_single_hit t _ _ hm, createSlots_ok hc]
      · rw [if_neg hk, lookupKey_append_single_other t _ _ _ hk]
  | some x =>
    simp only [upsertGroup, hm] at h
    rw [accumulateTable_ok_lookup h k']
    by_cases hk : k' = e.1
    · subst hk
      rw [if_pos rfl, if_pos rfl, hm]
      cases x with
      | mk slots vals => rfl
    · rw [if_neg hk, if_neg hk]


theorem upsertGroup_ok_keys {σ : Type} {specs : List (AggSpec σ)} {b : Block}
    {t t' : GroupFuncTable σ} {e : List Nat × (List Nat × List DataValue)}
    (h : upsertGroup specs b t e = .ok t') :
    t'.map (·.1) =
      if (lookupKey t e.1).isSome then t.map (·.1) else t.map (·.1) ++ [e.1] := by
  cases hm : lookupKey t e.1 with
  | none =>
    simp only [upsertGroup, hm] at h
    cases hc : createSlots (block_take_by_indices b e.2.1) specs with
    | error err => rw [hc] at h; exact absurd h (by simp)
    | ok slots =>
      rw [hc] at h
      injection h with h'
      rw [← h']
      simp
  | some x =>
    simp only [upsertGroup, hm] at h
    rw [accumulateTable_ok_keys h]
    simp

theorem upsertGroup_ok_nodup {σ : Type} {specs : List (AggSpec σ)} {b : Block}
    {t t' : GroupFuncTable σ} {e : List Nat × (List Nat × List DataValue)}
    (h : upsertGroup specs b t e = .ok t') (hnd : (t.map (·.1)).Nodup) :
    (t'.map (·.1)).Nodup := by
  rw [upsertGroup_ok_keys h]
  cases hm : lookupKey t e.1 with
  | some x => simpa using hnd
  | none =>
    have hnotmem : ¬ e.1 ∈ t.map (·.1) := (lookupKey_eq_none_iff t _).mp hm
    simp [List.nodup_append, hnd, hnotmem]

theorem processGroups_ok_lookup {σ : Type} {specs : List (AggSpec σ)} {b : Block} :
    ∀ {entries : List (List Nat × (List Nat × List DataValue))} {t t' : GroupFuncTable σ},
      (entries.map (·.1)).Nodup →
      processGroups specs b t entries = .ok t' →
      ∀ k', lookupKey t' k' =
        match entries.find? (fun e => e.1 == k') with
        | some e =>
          match lookupKey t k' with
          | none => some (createSlotsD (block_take_by_indices b e.2.1) specs, e.2.2)
          | some (slots, vals) =>
            some (accumulateSlotsD (block_take_by_indices b e.2.1) slots, vals)
        | none => lookupKey t k' := by
  intro entries
  induction entries with
  | nil =>
    intro t t' _ h k'
    simp only [processGroups] at h
    injection h with h'
    rw [← h']
    rfl
  | cons e rest ih =>
    intro t t' hnd h k'
    rw [List.map_cons, List.nodup_cons] at hnd
    simp only [processGroups] at h
    cases hu : upsertGroup specs b t e with
    | error err => rw [hu] at h; exact absurd h (by simp)
    | ok t1 =>
      rw [hu] at h
      by_cases hek : (e.1 : List Nat) = k'
      · have hrest : rest.find? (fun x => x.1 == k') = none := by
          rw [List.find?_eq_none]
          intro x hx hpx
          exact hnd.1 (hek.symm ▸ (beq_iff_eq.mp hpx) ▸ List.mem_map.mpr ⟨x, hx, rfl⟩)
        have ht1 : lookupKey t' k' = lookupKey t1 k' := by
          rw [ih hnd.2 h k', hrest]
        rw [@List.find?_cons_of_pos _ (fun x => x.1 == k') e rest (beq_iff_eq.mpr hek),
          ht1, upsertGroup_ok_lookup hu k', if_pos hek.symm, hek]
      · rw [@List.find?_cons_of_neg _ (fun x => x.1 == k') e rest (by simpa using hek)]
        have ht1 : lookupKey t1 k' = lookupKey t k' := by
          rw [upsertGroup_ok_lookup hu k', if_neg (fun hc => hek hc.symm)]
        rw [ih hnd.2 h k', ht1]

theorem processBlock_ok_lookup {σ : Type} {specs : List (AggSpec σ)} {names : List String}
    {t t' : GroupFuncTable σ} {b : Block} (h : processBlock specs names t b = .ok t') :
    ∀ k, lookupKey t' k =
      if (rowsForKey (groupColsD b names) b.numRows k).isEmpty then lookupKey t k
      else
        match lookupKey t k with
        | none => some (createSlotsD (takeForKey names b k) specs,
            rowValues (groupColsD b names)
              ((rowsForKey (groupColsD b names) b.numRows k).headD 0))
        | some (slots, vals) => some (accumulateSlotsD (takeForKey names b k) slots, vals) := by
  intro k
  simp only [processBlock] at h
  cases hc : resolveColumns b names with
  | error e => rw [hc] at h; exact absurd h (by simp)
  | ok cols =>
    rw [hc] at h
    have hcols : cols = groupColsD b names := resolveColumns_ok hc
    subst hcols
    have hnd := nodupKeys_makeGroupIndices (groupColsD b names) b.numRows
    rw [processGroups_ok_lookup hnd h k]
    have hlk := makeGroupIndices_lookup (groupColsD b names) b.numRows k
    cases hr : rowsForKey (groupColsD b names) b.numRows k with
    | nil =>
      rw [hr] at hlk
      rw [find?_entry_of_lookup_none hlk]
      simp
    | cons r rs =>
      rw [hr] at hlk
      rw [find?_entry_of_lookup_some hlk,
        if_neg (by simp : ¬ ((r :: rs : List Nat).isEmpty = true))]
      unfold takeForKey
      rw [hr]
      rfl

theorem contribBlocks_append_single (names : List String) (k : List Nat)
    (bs : List Block) (b : Block) :
    contribBlocks names k (bs ++ [b]) =
      contribBlocks names k bs ++
        (if occursIn names b k then [takeForKey names b k] else []) := by
  unfold contribBlocks
  rw [List.filter_append, List.map_append]
  by_cases h : occursIn names b k <;> simp [h]

theorem firstKeyValues_append_single (names : List String) (k : List Nat) :
    ∀ (bs : List Block) (b : Block),
      firstKeyValues names k (bs ++ [b]) =
        if (contribBlocks names k bs).isEmpty then firstKeyValues names k [b]
        else firstKeyValues names k bs := by
  intro bs
  induction bs with
  | nil => intro b; simp [contribBlocks]
  | cons b' rest ih =>
    intro b
    rw [List.cons_append]
    by_cases h : occursIn names b' k
    · have hne : (contribBlocks names k (b' :: rest)).isEmpty = false := by
        unfold contribBlocks
        rw [List.filter_cons, if_pos h]
        simp
      simp [firstKeyValues, h, hne]
    · have he : contribBlocks names k (b' :: rest) = contribBlocks names k rest := by
        unfold contribBlocks
        rw [List.filter_cons, if_neg (by simpa using h)]
      simp [firstKeyValues, h, he, ih b]

theorem slotFold_append_single {σ : Type} (sp : AggSpec σ) (tbs : List Block) (tb : Block) :
    slotFold sp (tbs ++ [tb]) =
      ⟨sp, sp.accumulate (slotFold sp tbs).state (argColsD tb sp.args) tb.numRows⟩ := by
  unfold slotFold
  rw [List.foldl_append]
  rfl

theorem createSlotsD_as_slotFold {σ : Type} (tb : Block) (specs : List (AggSpec σ)) :
    createSlotsD tb specs = specs.map (fun sp => slotFold sp [tb]) := by
  unfold createSlotsD
  apply List.map_congr_left
  intro sp _
  rfl

theorem accumulateSlotsD_map_slotFold {σ : Type} (tb : Block) (specs : List (AggSpec σ))
    (tbs : List Block) :
    accumulateSlotsD tb (specs.map (fun sp => slotFold sp tbs)) =
      specs.map (fun sp => slotFold sp (tbs ++ [tb])) := by
  unfold accumulateSlotsD
  rw [List.map_map]
  apply List.map_congr_left
  intro sp _
  rw [slotFold_append_single]
  rfl

theorem modelEntry_append_single {σ : Type} (specs : List (AggSpec σ)) (names : List String)
    (k : List Nat) (bs : List Block) (b : Block) :
    modelEntry specs names k (bs ++ [b]) =
      if (rowsForKey (groupColsD b names) b.numRows k).isEmpty then
        modelEntry specs names k bs
      else
        match modelEntry specs names k bs with
        | none => some (createSlotsD (takeForKey names b k) specs, firstKeyValues names k [b])
        | some (slots, vals) =>
          some (accumulateSlotsD (takeForKey names b k) slots, vals) := by
  by_cases hocc : (rowsForKey (groupColsD b names) b.numRows k).isEmpty
  · rw [if_pos hocc]
    have hno : occursIn names b k = false := by
      unfold occursIn
      simp only [hocc, Bool.not_true]
    unfold modelEntry
    rw [contribBlocks_append_single, hno]
    simp only [Bool.false_eq_true, if_false, List.append_nil]
    by_cases hce : (contribBlocks names k bs).isEmpty
    · rw [if_pos hce, if_pos hce]
    · rw [if_neg hce, if_neg hce, firstKeyValues_append_single,
        if_neg (by simpa using fun hc => hce hc)]
  · rw [if_neg hocc]
    have hyes : occursIn names b k = true := by
      unfold occursIn
      cases hx : (rowsForKey (groupColsD b names) b.numRows k).isEmpty with
      | true => exact absurd hx hocc
      | false => rfl
    unfold modelEntry
    rw [contribBlocks_append_single, hyes, if_pos rfl, firstKeyValues_append_single]
    by_cases hce : (contribBlocks names k bs).isEmpty
    · have hcee : contribBlocks names k bs = [] := by
        cases hc : contribBlocks names k bs with
        | nil => rfl
        | cons c cs => rw [hc] at hce; simp at hce
      rw [if_pos hce, if_pos hce, hcee]
      simp only [List.nil_append, List.isEmpty_cons, Bool.false_eq_true, if_false,
        createSlotsD_as_slotFold]
    · have hcne : ¬ (contribBlocks names k bs ++ [takeForKey names b k]).isEmpty = true := by
        cases hc : contribBlocks names k bs with
        | nil => rw [hc] at hce; simp at hce
        | cons c cs => simp [hc]
      rw [if_neg hce, if_neg hce, if_neg hcne]
      have hslots : specs.map (fun sp => slotFold sp (contribBlocks names k bs ++
          [takeForKey names b k])) =
          accumulateSlotsD (takeForKey names b k)
            (specs.map (fun sp => slotFold sp (contribBlocks names k bs))) := by
        rw [accumulateSlotsD_map_slotFold]
      rw [hslots]

theorem processBlock_models {σ : Type} {specs : List (AggSpec σ)} {names : List String}
    {t t' : GroupFuncTable σ} {b : Block} {bs : List Block}
    (hm : ∀ k, lookupKey t k = modelEntry specs names k bs)
    (h : processBlock specs names t b = .ok t') :
    ∀ k, lookupKey t' k = modelEntry specs names k (bs ++ [b]) := by
  intro k
  rw [processBlock_ok_lookup h k, modelEntry_append_single, hm k]
  by_cases hr : (rowsForKey (groupColsD b names) b.numRows k).isEmpty
  · rw [if_pos hr, if_pos hr]
  · rw [if_neg hr, if_neg hr]
    have hyes : occursIn names b k = true := by
      unfold occursIn
      cases hx : (rowsForKey (groupColsD b names) b.numRows k).isEmpty with
      | true => exact absurd hx hr
      | false => rfl
    cases modelEntry specs names k bs with
    | none =>
      have hfk : firstKeyValues names k [b] =
          rowValues (groupColsD b names)
            ((rowsForKey (groupColsD b names) b.numRows k).headD 0) := by
        unfold firstKeyValues
        rw [hyes]
        simp
      rw [hfk]
    | some x =>
      cases x with
      | mk slots vals => rfl

theorem processBlocks_models {σ : Type} {specs : List (AggSpec σ)} {names : List String} :
    ∀ {blocks bs : List Block} {t table : GroupFuncTable σ},
      (∀ k, lookupKey t k = modelEntry specs names k bs) →
      processBlocks specs names t blocks = .ok table →
      ∀ k, lookupKey table k = modelEntry specs names k (bs ++ blocks) := by
  intro blocks
  induction blocks with
  | nil =>
    intro bs t table hm h k
    simp only [processBlocks] at h
    injection h with h'
    rw [← h', List.append_nil]
    exact hm k
  | cons b rest ih =>
    intro bs t table hm h k
    simp only [processBlocks] at h
    cases hp : processBlock specs names t b with
    | error e => rw [hp] at h; exact absurd h (by simp)
    | ok t1 =>
      rw [hp] at h
      have hm1 := processBlock_models hm hp
      have hres := ih hm1 h k
      rw [← List.append_cons] at hres
      exact hres

theorem processBlocks_lookup_model {σ : Type} {specs : List (AggSpec σ)}
    {names : List String} {blocks : List Block} {table : GroupFuncTable σ}
    (h : processBlocks specs names [] blocks = .ok table) :
    ∀ k, lookupKey table k = modelEntry specs names k blocks := by
  have h0 : ∀ k, lookupKey ([] : GroupFuncTable σ) k = modelEntry specs names k [] := by
    intro k
    simp [lookupKey, modelEntry, contribBlocks]
  have hres := processBlocks_models h0 h
  simpa using hres

theorem processGroups_ok_nodup {σ : Type} {specs : List (AggSpec σ)} {b : Block} :
    ∀ {entries : List (List Nat × (List Nat × List DataValue))} {t t' : GroupFuncTable σ},
      processGroups specs b t entries = .ok t' →
      (t.map (·.1)).Nodup → (t'.map (·.1)).Nodup := by
  intro entries
  induction entries with
  | nil =>
    intro t t' h hnd
    simp only [processGroups] at h
    injection h with h'
    rw [← h']
    exact hnd
  | cons e rest ih =>
    intro t t' h hnd
    simp only [processGroups] at h
    cases hu : upsertGroup specs b t e with
    | error err => rw [hu] at h; exact absurd h (by simp)
    | ok t1 =>
      rw [hu] at h
      exact ih h (upsertGroup_ok_nodup hu hnd)

theorem processBlock_ok_nodup {σ : Type} {specs : List (AggSpec σ)} {names : List String}
    {t t' : GroupFuncTable σ} {b : Block} (h : processBlock specs names t b = .ok t')
    (hnd : (t.map (·.1)).Nodup) : (t'.map (·.1)).Nodup := by
  simp only [processBlock] at h
  cases hc : resolveColumns b names with
  | error e => rw [hc] at h; exact absurd h (by simp)
  | ok cols =>
    rw [hc] at h
    exact processGroups_ok_nodup h hnd

theorem processBlocks_ok_nodup {σ : Type} {specs : List (AggSpec σ)} {names : List String} :
    ∀ {blocks : List Block} {t table : GroupFuncTable σ},
      processBlocks specs names t blocks = .ok table →
      (t.map (·.1)).Nodup → (table.map (·.1)).Nodup := by
  intro blocks
  induction blocks with
  | nil =>
    intro t table h hnd
    simp only [processBlocks] at h
    injection h with h'
    rw [← h']
    exact hnd
  | cons b rest ih =>
    intro t table h hnd
    simp only [processBlocks] at h
    cases hp : processBlock specs names t b with
    | error e => rw [hp] at h; exact absurd h (by simp)
    | ok t1 =>
      rw [hp] at h
      exact ih h (processBlock_ok_nodup hp hnd)

theorem processBlock_empty_ok {σ : Type} {specs : List (AggSpec σ)} {names : List String}
    (t : GroupFuncTable σ) (b : Block) (h0 : b.numRows = 0)
    (hn : ∀ nm ∈ names, nm ∈ columnNames b) :
    processBlock specs names t b = .ok t := by
  simp only [processBlock]
  rw [resolveColumns_of_mem hn, h0]
  rfl

/-- C6: if every input block is empty (or there are no input blocks at
all), the operator succeeds with the empty-schema, zero-block output rather
than failing. -/
theorem c6_empty_input_short_circuit {σ : Type} (selfSchema : List DataField)
    (specs : List (AggSpec σ)) (groupExprs : List GroupExpr)
    (serKeys : List DataValue → String) (blocks : List Block)
    (hempty : ∀ b ∈ blocks, b.numRows = 0)
    (hnames : ∀ b ∈ blocks, ∀ nm ∈ groupExprs.map (·.columnName), nm ∈ columnNames b) :
    execute selfSchema specs groupExprs serKeys blocks = .ok ⟨[], []⟩ := by
  have hrun : processBlocks specs (groupExprs.map (·.columnName)) [] blocks = .ok [] := by
    induction blocks with
    | nil => rfl
    | cons b rest ih =>
      simp only [processBlocks]
      rw [processBlock_empty_ok [] b (hempty b (by simp))
        (hnames b (by simp))]
      exact ih (fun b' hb' => hempty b' (by simp [hb'])) (fun b' hb' => hnames b' (by simp [hb']))
  simp only [execute]
  rw [hrun]
  rfl

/-- Witness for C6 at a concrete input: one zero-row block with the group
column present yields the empty output, not an error. -/
theorem c6_empty_input_short_circuit_witness :
    execute ([] : List DataField) [countSpec]
      [⟨"a", ⟨"a", FieldTy.foreign "Int8", false⟩⟩] (fun _ => "keys")
      [⟨0, [("a", [])]⟩] = .ok ⟨[], []⟩ := by
  exact c6_empty_input_short_circuit [] [countSpec]
    [⟨"a", ⟨"a", FieldTy.foreign "Int8", false⟩⟩] (fun _ => "keys")
    [⟨0, [("a", [])]⟩] (by decide) (by decide)

/-- C9: in any successful run, each table entry's stored KeyValues are
exactly those of the first row that created the entry — later rows of the
same batch and later batches never overwrite them — and the slots still
carry the operator's aggregate specifications in order: hits mutate only
accumulator states. -/
theorem c9_keyvalues_first_creator {σ : Type} {specs : List (AggSpec σ)}
    {names : List String} {blocks : List Block} {table : GroupFuncTable σ}
    (h : processBlocks specs names [] blocks = .ok table) :
    ∀ k slots vals, lookupKey table k = some (slots, vals) →
      vals = firstKeyValues names k blocks ∧ slots.map (·.spec) = specs := by
  intro k slots vals hl
  rw [processBlocks_lookup_model h k] at hl
  unfold modelEntry at hl
  by_cases hc : (contribBlocks names k blocks).isEmpty
  · rw [if_pos hc] at hl; exact absurd hl (by simp)
  · rw [if_neg hc] at hl
    injection hl with hl'
    have h1 : slots = specs.map (fun sp => slotFold sp (contribBlocks names k blocks)) :=
      (congrArg Prod.fst hl').symm
    have h2 : vals = firstKeyValues names k blocks := (congrArg Prod.snd hl').symm
    refine ⟨h2, ?_⟩
    rw [h1, List.map_map]
    conv_rhs => rw [← List.map_id specs]
    apply List.map_congr_left
    intro sp _
    rfl

/-- Witness for C9: a single one-row block; the created entry's key values
are the creating row's tuple and the slot specs are the operator's. -/
theorem c9_keyvalues_first_creator_witness :
    [DataValue.int 1 7] =
        firstKeyValues ["a"] [1, 7] [⟨1, [("a", [DataValue.int 1 7])]⟩] ∧
      ([⟨countSpec, 1⟩] : List (AggSlot Nat)).map (·.spec) = [countSpec] := by
  exact @c9_keyvalues_first_creator Nat [countSpec] ["a"]
    [⟨1, [("a", [DataValue.int 1 7])]⟩]
    [([1, 7], ([⟨countSpec, 1⟩], [DataValue.int 1 7]))] rfl
    [1, 7] [⟨countSpec, 1⟩] [DataValue.int 1 7] rfl

/-- C8: one upsert critical section (the write-locked body of the 1.3
loop) never deletes an entry (every present entry survives with its key
values intact); it adds `e`'s key exactly when that key is absent and adds
nothing on a hit, so an entry is created exactly once over the operator's
lifetime; and it preserves the invariant that every entry of every
reachable table state is fully initialized: its slots are the operator's
aggregate specifications folded over a non-empty list of gathered blocks
(creation and first accumulation happen inside the same critical
section). -/
theorem c8_entry_created_once_atomic {σ : Type} {specs : List (AggSpec σ)} {b : Block}
    {t t' : GroupFuncTable σ} {e : List Nat × (List Nat × List DataValue)}
    (h : upsertGroup specs b t e = .ok t') :
    (∀ k x, lookupKey t k = some x → ∃ y, lookupKey t' k = some y ∧ y.2 = x.2) ∧
    ((lookupKey t e.1).isSome = true → t'.map (·.1) = t.map (·.1)) ∧
    (lookupKey t e.1 = none → t'.map (·.1) = t.map (·.1) ++ [e.1]) ∧
    ((∀ k entry, lookupKey t k = some entry → ∃ tbs : List Block, tbs ≠ [] ∧
        entry.1 = specs.map (fun sp => slotFold sp tbs)) →
      ∀ k entry, lookupKey t' k = some entry → ∃ tbs : List Block, tbs ≠ [] ∧
        entry.1 = specs.map (fun sp => slotFold sp tbs)) := by
  refine ⟨?_, ?_, ?_, ?_⟩
  · intro k x hx
    rw [upsertGroup_ok_lookup h k]
    by_cases hk : k = e.1
    · subst hk
      rw [if_pos rfl, hx]
      cases x with
      | mk slots vals =>
        exact ⟨(accumulateSlotsD (block_take_by_indices b e.2.1) slots, vals), rfl, rfl⟩
    · rw [if_neg hk]
      exact ⟨x, hx, rfl⟩
  · intro hsome
    rw [upsertGroup_ok_keys h, if_pos hsome]
  · intro hnone
    rw [upsertGroup_ok_keys h, hnone]
    rfl
  · intro hinv k entry hl
    rw [upsertGroup_ok_lookup h k] at hl
    by_cases hk : k = e.1
    · subst hk
      rw [if_pos rfl] at hl
      cases hm : lookupKey t e.1 with
      | none =>
        rw [hm] at hl
        have hl' : some (createSlotsD (block_take_by_indices b e.2.1) specs, e.2.2) =
            some entry := hl
        injection hl' with hl''
        refine ⟨[block_take_by_indices b e.2.1], by simp, ?_⟩
        rw [← hl'', createSlotsD_as_slotFold]
      | some x =>
        cases x with
        | mk slots vals =>
          rw [hm] at hl
          have hl' : some (accumulateSlotsD (block_take_by_indices b e.2.1) slots, vals) =
              some entry := hl
          injection hl' with hl''
          obtain ⟨tbs, hne, hfold⟩ := hinv e.1 (slots, vals) hm
          refine ⟨tbs ++ [block_take_by_indices b e.2.1], by simp, ?_⟩
          rw [← hl'']
          show accumulateSlotsD (block_take_by_indices b e.2.1) slots = _
          rw [show slots = specs.map (fun sp => slotFold sp tbs) from hfold,
            accumulateSlotsD_map_slotFold]
    · rw [if_neg hk] at hl
      exact hinv k entry hl

/-- Witness for C8 at a concrete upsert: inserting the first group of a
one-row block into the empty table. -/
theorem c8_entry_created_once_atomic_witness :
    (∀ k x, lookupKey ([] : GroupFuncTable Nat) k = some x →
      ∃ y, lookupKey
        [([1, 7], ([(⟨countSpec, 1⟩ : AggSlot Nat)], [DataValue.int 1 7]))] k = some y ∧
        y.2 = x.2) ∧
    ((lookupKey ([] : GroupFuncTable Nat)
        (([1, 7], ([0], [DataValue.int 1 7])) :
          List Nat × (List Nat × List DataValue)).1).isSome = true →
      ([([1, 7], ([⟨countSpec, 1⟩], [DataValue.int 1 7]))] :
        GroupFuncTable Nat).map (·.1) = ([] : GroupFuncTable Nat).map (·.1)) ∧
    (lookupKey ([] : GroupFuncTable Nat)
        (([1, 7], ([0], [DataValue.int 1 7])) :
          List Nat × (List Nat × List DataValue)).1 = none →
      ([([1, 7], ([⟨countSpec, 1⟩], [DataValue.int 1 7]))] :
        GroupFuncTable Nat).map (·.1) =
        ([] : GroupFuncTable Nat).map (·.1) ++
          [(([1, 7], ([0], [DataValue.int 1 7])) :
            List Nat × (List Nat × List DataValue)).1]) ∧
    ((∀ k entry, lookupKey ([] : GroupFuncTable Nat) k = some entry →
        ∃ tbs : List Block, tbs ≠ [] ∧
          entry.1 = [countSpec].map (fun sp => slotFold sp tbs)) →
      ∀ k entry,
        lookupKey [([1, 7], ([⟨countSpec, 1⟩], [DataValue.int 1 7]))] k = some entry →
        ∃ tbs : List Block, tbs ≠ [] ∧
          entry.1 = [countSpec].map (fun sp => slotFold sp tbs)) := by
  exact @c8_entry_created_once_atomic Nat [countSpec] ⟨1, [("a", [DataValue.int 1 7])]⟩
    [] [([1, 7], ([⟨countSpec, 1⟩], [DataValue.int 1 7]))]
    ([1, 7], ([0], [DataValue.int 1 7])) rfl

theorem tryColumnByName_error {b : Block} {n : String} (h : ¬ n ∈ columnNames b) :
    tryColumnByName b n = .error (.evalError n) := by
  unfold tryColumnByName
  cases hf : b.columns.find? (fun c => c.1 == n) with
  | none => rfl
  | some c =>
    exfalso
    have hmem := List.mem_of_find?_eq_some hf
    have hp := List.find?_some hf
    exact h (List.mem_map.mpr ⟨c, hmem, beq_iff_eq.mp hp⟩)

theorem resolveColumns_error {b : Block} : ∀ {ns : List String},
    (∃ n ∈ ns, ¬ n ∈ columnNames b) →
    ∃ n', ¬ n' ∈ columnNames b ∧ resolveColumns b ns = .error (.evalError n') := by
  intro ns
  induction ns with
  | nil =>
    intro h
    obtain ⟨n, hn, _⟩ := h
    cases hn
  | cons n rest ih =>
    intro h
    by_cases hn : n ∈ columnNames b
    · have hrest : ∃ m ∈ rest, ¬ m ∈ columnNames b := by
        obtain ⟨m, hm, hmn⟩ := h
        rcases List.mem_cons.mp hm with rfl | hm'
        · exact absurd hn hmn
        · exact ⟨m, hm', hmn⟩
      obtain ⟨n', hn', herr⟩ := ih hrest
      refine ⟨n', hn', ?_⟩
      simp only [resolveColumns]
      rw [tryColumnByName_of_mem hn, herr]
    · refine ⟨n, hn, ?_⟩
      simp only [resolveColumns]
      rw [tryColumnByName_error hn]

theorem createSlots_error {σ : Type} {tb : Block} : ∀ {specs : List (AggSpec σ)},
    (∃ sp ∈ specs, ∃ a ∈ sp.args, ¬ a ∈ columnNames tb) →
    ∃ a', ¬ a' ∈ columnNames tb ∧ createSlots tb specs = .error (.evalError a') := by
  intro specs
  induction specs with
  | nil =>
    intro h
    obtain ⟨sp, hsp, _⟩ := h
    cases hsp
  | cons sp rest ih =>
    intro h
    by_cases hsp : ∀ a ∈ sp.args, a ∈ columnNames tb
    · have hrest : ∃ sp' ∈ rest, ∃ a ∈ sp'.args, ¬ a ∈ columnNames tb := by
        obtain ⟨sp', hm, a, ha, hna⟩ := h
        rcases List.mem_cons.mp hm with rfl | hm'
        · exact absurd (hsp a ha) hna
        · exact ⟨sp', hm', a, ha, hna⟩
      obtain ⟨a', ha', herr⟩ := ih hrest
      refine ⟨a', ha', ?_⟩
      simp only [createSlots]
      rw [resolveColumns_of_mem hsp, herr]
    · push_neg at hsp
      obtain ⟨a, ha, hna⟩ := hsp
      obtain ⟨a', ha', herr⟩ := resolveColumns_error ⟨a, ha, hna⟩
      refine ⟨a', ha', ?_⟩
      simp only [createSlots]
      rw [herr]

theorem columnNames_take (b : Block) (l : List Nat) :
    columnNames (block_take_by_indices b l) = columnNames b := by
  unfold columnNames block_take_by_indices
  rw [List.map_map]
  rfl

/-- C5: if some aggregate expression expects an argument column that is
absent from the gathered batch (equivalently, from the input block), the
whole operator aborts with an EvalError for a missing column as the
terminal result: no output batch is produced for the failed run. -/
theorem c5_missing_arg_aborts {σ : Type} (selfSchema : List DataField)
    (specs : List (AggSpec σ)) (groupExprs : List GroupExpr)
    (serKeys : List DataValue → String) (b : Block)
    (hnames : ∀ nm ∈ groupExprs.map (·.columnName), nm ∈ columnNames b)
    (hrows : 0 < b.numRows)
    (hmissing : ∃ sp ∈ specs, ∃ a ∈ sp.args, ¬ a ∈ columnNames b) :
    ∃ a', ¬ a' ∈ columnNames b ∧
      execute selfSchema specs groupExprs serKeys [b] = .error (.evalError a') := by
  have hne : makeGroupIndices (groupColsD b (groupExprs.map (·.columnName)))
      b.numRows ≠ [] := by
    intro hnil
    have h0 : (0 : Nat) ∈ rowsForKey (groupColsD b (groupExprs.map (·.columnName)))
        b.numRows (rowKey (groupColsD b (groupExprs.map (·.columnName))) 0) := by
      unfold rowsForKey
      rw [List.mem_filter]
      exact ⟨List.mem_range.mpr hrows, by simp⟩
    have hlm := makeGroupIndices_lookup (groupColsD b (groupExprs.map (·.columnName)))
      b.numRows (rowKey (groupColsD b (groupExprs.map (·.columnName))) 0)
    rw [hnil] at hlm
    cases hr : rowsForKey (groupColsD b (groupExprs.map (·.columnName))) b.numRows
        (rowKey (groupColsD b (groupExprs.map (·.columnName))) 0) with
    | nil => rw [hr] at h0; cases h0
    | cons r rs =>
      rw [hr] at hlm
      exact absurd hlm (by simp [lookupKey])
  obtain ⟨e0, rest, hmi⟩ : ∃ e0 rest,
      makeGroupIndices (groupColsD b (groupExprs.map (·.columnName))) b.numRows =
        e0 :: rest := by
    cases hmi' : makeGroupIndices (groupColsD b (groupExprs.map (·.columnName)))
        b.numRows with
    | nil => exact absurd hmi' hne
    | cons e0 rest => exact ⟨e0, rest, rfl⟩
  obtain ⟨a', ha', herr⟩ := @createSlots_error σ (block_take_by_indices b e0.2.1) specs
    (by rw [columnNames_take]; exact hmissing)
  rw [columnNames_take] at ha'
  have hup : upsertGroup specs b [] e0 = .error (.evalError a') := by
    show (match createSlots (block_take_by_indices b e0.2.1) specs with
      | .error e => (.error e : Except Err (GroupFuncTable σ))
      | .ok slots => .ok ([] ++ [(e0.1, (slots, e0.2.2))])) = .error (.evalError a')
    rw [herr]
  have hpb : processBlock specs (groupExprs.map (·.columnName)) [] b =
      .error (.evalError a') := by
    simp only [processBlock]
    rw [resolveColumns_of_mem hnames]
    show processGroups specs b []
      (makeGroupIndices (groupColsD b (groupExprs.map (·.columnName))) b.numRows) = _
    rw [hmi]
    simp only [processGroups]
    rw [hup]
  refine ⟨a', ha', ?_⟩
  simp only [execute, processBlocks]
  rw [hpb]

/-- Witness for C5: a one-row block with group column "a" and an aggregate
whose argument column "x" does not exist; the run ends in the EvalError. -/
theorem c5_missing_arg_aborts_witness :
    ∃ a', ¬ a' ∈ columnNames ⟨1, [("a", [DataValue.int 1 0])]⟩ ∧
      execute ([] : List DataField)
        [(⟨"sum", ["x"], 0, fun s _ _ => s, fun _ => ""⟩ : AggSpec Nat)]
        [⟨"a", ⟨"a", FieldTy.foreign "Int8", false⟩⟩] (fun _ => "keys")
        [⟨1, [("a", [DataValue.int 1 0])]⟩] = .error (.evalError a') := by
  exact c5_missing_arg_aborts []
    [(⟨"sum", ["x"], 0, fun s _ _ => s, fun _ => ""⟩ : AggSpec Nat)]
    [⟨"a", ⟨"a", FieldTy.foreign "Int8", false⟩⟩] (fun _ => "keys")
    ⟨1, [("a", [DataValue.int 1 0])]⟩ (by decide) (by decide)
    ⟨⟨"sum", ["x"], 0, fun s _ _ => s, fun _ => ""⟩, by simp, "x", by simp, by decide⟩

/-- C4 at the failing input: with one group-by expression and one
aggregate over a one-group block, the single output block's columns are
the serialized aggregate state, the serialized key values and the raw
group key (3 columns), but its declared schema has 4 fields because the
group expression's field "a" is prepended before the aggregate state
field — the schema does not match the columns. -/
theorem c4_schema_field_mismatch :
    (execute ([] : List DataField) [countSpec]
        [⟨"a", ⟨"a", FieldTy.foreign "Int8", false⟩⟩] (fun _ => "keys")
        [⟨2, [("a", [DataValue.int 1 0, DataValue.int 1 0])]⟩]).map
      (fun o => o.blocks.map (fun blk =>
        (blk.schema.map (·.name), blk.schema.length, blk.columns.length, blk.columns))) =
    .ok [(["a", "count", "_group_keys", "_group_by_key"], 4, 3,
      [OutColumn.strCol ["2"], OutColumn.strCol ["keys"],
        OutColumn.binCol [[1, 0]]])] := by
  rfl

theorem sum_map_zero {α : Type} (l : List α) : (l.map (fun _ => (0 : Nat))).sum = 0 := by
  induction l with
  | nil => rfl
  | cons a rest ih => simp [ih]

theorem sum_map_add {α : Type} (l : List α) (f g : α → Nat) :
    (l.map (fun x => f x + g x)).sum = (l.map f).sum + (l.map g).sum := by
  induction l with
  | nil => rfl
  | cons a rest ih =>
    simp only [List.map_cons, List.sum_cons, ih]
    omega

theorem sum_map_swap {α β : Type} (l1 : List α) (l2 : List β) (f : α → β → Nat) :
    (l1.map (fun a => (l2.map (f a)).sum)).sum =
      (l2.map (fun b => (l1.map (fun a => f a b)).sum)).sum := by
  induction l1 with
  | nil => simp [sum_map_zero]
  | cons a rest ih =>
    simp only [List.map_cons, List.sum_cons, ih, sum_map_add]

theorem sum_indicator_zero (keys : List (List Nat)) (x : List Nat) (h : ¬ x ∈ keys) :
    (keys.map (fun k => if (x == k) = true then 1 else 0)).sum = 0 := by
  induction keys with
  | nil => rfl
  | cons k rest ih =>
    have hxk : ¬ x = k := fun hc => h (by simp [hc])
    simp only [List.map_cons, List.sum_cons]
    rw [if_neg (by simpa using hxk), ih (fun hc => h (by simp [hc]))]

theorem sum_indicator_one (keys : List (List Nat)) (hnd : keys.Nodup) (x : List Nat)
    (h : x ∈ keys) :
    (keys.map (fun k => if (x == k) = true then 1 else 0)).sum = 1 := by
  induction keys with
  | nil => cases h
  | cons k rest ih =>
    rw [List.nodup_cons] at hnd
    simp only [List.map_cons, List.sum_cons]
    by_cases hxk : x = k
    · rw [if_pos (by simpa using hxk), sum_indicator_zero rest x (hxk ▸ hnd.1)]
    · have hmem : x ∈ rest := by
        rcases List.mem_cons.mp h with hc | hc
        · exact absurd hc hxk
        · exact hc
      rw [if_neg (by simpa using hxk), ih hnd.2 hmem]

theorem sum_countP_partition (keys : List (List Nat)) (hnd : keys.Nodup)
    (keyOf : Nat → List Nat) :
    ∀ rows : List Nat, (∀ r ∈ rows, keyOf r ∈ keys) →
      (keys.map (fun k => (rows.filter (fun r => keyOf r == k)).length)).sum =
        rows.length := by
  intro rows
  induction rows with
  | nil =>
    intro _
    simp [sum_map_zero]
  | cons r rest ih =>
    intro hcov
    have hstep : ∀ k, ((r :: rest).filter (fun r' => keyOf r' == k)).length =
        (if (keyOf r == k) = true then 1 else 0) +
          (rest.filter (fun r' => keyOf r' == k)).length := by
      intro k
      rw [List.filter_cons]
      by_cases hc : (keyOf r == k) = true
      · simp [hc]
        omega
      · simp [hc]
    rw [List.map_congr_left (fun k _ => hstep k), sum_map_add,
      sum_indicator_one keys hnd (keyOf r) (hcov r (by simp)),
      ih (fun r' hr' => hcov r' (by simp [hr']))]
    simp only [List.length_cons]
    omega

theorem getD_map_of_getElem? {α β : Type} {l : List α} {i : Nat} {a : α} (g : α → β)
    (d : β) (h : l[i]? = some a) : (l.map g).getD i d = g a := by
  rw [List.getD_eq_getElem?_getD, List.getElem?_map, h]
  rfl

theorem slotFold_count {σ : Type} (csp : AggSpec σ) (f : σ → Nat)
    (hacc : ∀ s cols rows, f (csp.accumulate s cols rows) = f s + rows)
    (hinit : f csp.init = 0) (tbs : List Block) :
    f (slotFold csp tbs).state = (tbs.map (·.numRows)).sum := by
  have hfold : ∀ (tbs' : List Block) (s : σ),
      f (tbs'.foldl (fun s tb => csp.accumulate s (argColsD tb csp.args) tb.numRows) s) =
        f s + (tbs'.map (·.numRows)).sum := by
    intro tbs'
    induction tbs' with
    | nil => intro s; simp
    | cons tb rest ih =>
      intro s
      rw [List.foldl_cons, ih, hacc]
      simp only [List.map_cons, List.sum_cons]
      omega
  unfold slotFold
  rw [hfold, hinit, Nat.zero_add]

theorem contrib_numRows_sum (names : List String) (k : List Nat) :
    ∀ blocks : List Block,
      ((contribBlocks names k blocks).map (·.numRows)).sum =
        (blocks.map (fun b =>
          (rowsForKey (groupColsD b names) b.numRows k).length)).sum := by
  intro blocks
  induction blocks with
  | nil => rfl
  | cons b rest ih =>
    unfold contribBlocks at ih ⊢
    rw [List.filter_cons]
    by_cases hocc : occursIn names b k
    · rw [if_pos (by simpa using hocc)]
      simp only [List.map_cons, List.sum_cons]
      rw [ih]
      rfl
    · rw [if_neg (by simpa using hocc)]
      have hz : (rowsForKey (groupColsD b names) b.numRows k).length = 0 := by
        unfold occursIn at hocc
        cases hr : rowsForKey (groupColsD b names) b.numRows k with
        | nil => rfl
        | cons x xs => rw [hr] at hocc; simp at hocc
      simp only [List.map_cons, List.sum_cons, hz, Nat.zero_add]
      rw [ih]

theorem key_in_table_of_row {σ : Type} {specs : List (AggSpec σ)} {names : List String}
    {blocks : List Block} {table : GroupFuncTable σ}
    (h : processBlocks specs names [] blocks = .ok table) {b : Block} (hb : b ∈ blocks)
    {r : Nat} (hr : r < b.numRows) :
    rowKey (groupColsD b names) r ∈ table.map (·.1) := by
  have hocc : occursIn names b (rowKey (groupColsD b names) r) = true := by
    unfold occursIn
    cases hrk : rowsForKey (groupColsD b names) b.numRows
        (rowKey (groupColsD b names) r) with
    | nil =>
      exfalso
      have : r ∈ rowsForKey (groupColsD b names) b.numRows
          (rowKey (groupColsD b names) r) := by
        unfold rowsForKey
        rw [List.mem_filter]
        exact ⟨List.mem_range.mpr hr, by simp⟩
      rw [hrk] at this
      cases this
    | cons x xs => rfl
  have hcontrib : ¬ (contribBlocks names (rowKey (groupColsD b names) r) blocks).isEmpty := by
    unfold contribBlocks
    have hbf : b ∈ blocks.filter
        (fun b' => occursIn names b' (rowKey (groupColsD b names) r)) :=
      List.mem_filter.mpr ⟨hb, hocc⟩
    cases hf : blocks.filter
        (fun b' => occursIn names b' (rowKey (groupColsD b names) r)) with
    | nil => rw [hf] at hbf; cases hbf
    | cons x xs => simp
  have hlk := processBlocks_lookup_model h (rowKey (groupColsD b names) r)
  unfold modelEntry at hlk
  rw [if_neg hcontrib] at hlk
  by_contra hnm
  rw [← lookupKey_eq_none_iff] at hnm
  rw [hnm] at hlk
  exact absurd hlk (by simp)

/-- C2: in any successful run with a COUNT-like aggregate at position `i`
(its projected counter starts at 0 and grows by the row count on every
batch-accumulate), the counter summed over all output groups equals the
total number of input rows: every row lands in exactly one group, none
dropped, none duplicated. -/
theorem c2_count_equals_total_rows {σ : Type} {specs : List (AggSpec σ)}
    {names : List String} {blocks : List Block} {table : GroupFuncTable σ}
    (h : processBlocks specs names [] blocks = .ok table)
    {i : Nat} {csp : AggSpec σ} (hi : specs[i]? = some csp) (f : σ → Nat)
    (hacc : ∀ s cols rows, f (csp.accumulate s cols rows) = f s + rows)
    (hinit : f csp.init = 0) :
    (table.map (fun e => (e.2.1.map (fun sl => f sl.state)).getD i 0)).sum =
      (blocks.map (·.numRows)).sum := by
  have hnd : (table.map (·.1)).Nodup := processBlocks_ok_nodup h (by simp)
  have hper : ∀ e ∈ table, (e.2.1.map (fun sl => f sl.state)).getD i 0 =
      (blocks.map (fun b =>
        (rowsForKey (groupColsD b names) b.numRows e.1).length)).sum := by
    intro e he
    have hmem : (e.1, e.2) ∈ table := by
      cases e with
      | mk k x => exact he
    have hlk : lookupKey table e.1 = some e.2 := lookupKey_of_mem_nodup hnd hmem
    rw [processBlocks_lookup_model h e.1] at hlk
    unfold modelEntry at hlk
    by_cases hc : (contribBlocks names e.1 blocks).isEmpty
    · rw [if_pos hc] at hlk; exact absurd hlk (by simp)
    · rw [if_neg hc] at hlk
      injection hlk with hlk'
      have hslots : e.2.1 =
          specs.map (fun sp => slotFold sp (contribBlocks names e.1 blocks)) :=
        (congrArg Prod.fst hlk').symm
      rw [hslots, List.map_map, getD_map_of_getElem? _ 0 hi]
      show f (slotFold csp (contribBlocks names e.1 blocks)).state = _
      rw [slotFold_count csp f hacc hinit, contrib_numRows_sum]
  rw [List.map_congr_left hper, sum_map_swap]
  apply congrArg
  apply List.map_congr_left
  intro b hb
  have hmm : (table.map (fun e =>
      (rowsForKey (groupColsD b names) b.numRows e.1).length)) =
      ((table.map (·.1)).map (fun k =>
        (rowsForKey (groupColsD b names) b.numRows k).length)) := by
    rw [List.map_map]
    rfl
  rw [hmm]
  unfold rowsForKey
  rw [sum_countP_partition (table.map (·.1)) hnd
    (fun r => rowKey (groupColsD b names) r) (List.range b.numRows)
    (fun r hr => key_in_table_of_row h hb (List.mem_range.mp hr))]
  exact List.length_range b.numRows

/-- Witness for C2: two blocks, three rows, two groups; the count slot sums
to 3 over the table. -/
theorem c2_count_equals_total_rows_witness :
    (([([1, 0], ([(⟨countSpec, 2⟩ : AggSlot Nat)], [DataValue.int 1 0])),
        ([1, 1], ([⟨countSpec, 1⟩], [DataValue.int 1 1]))] : GroupFuncTable Nat).map
      (fun e => (e.2.1.map (fun sl => id sl.state)).getD 0 0)).sum =
      (([⟨2, [("a", [DataValue.int 1 0, DataValue.int 1 1])]⟩,
        ⟨1, [("a", [DataValue.int 1 0])]⟩] : List Block).map (·.numRows)).sum := by
  exact @c2_count_equals_total_rows Nat [countSpec] ["a"]
    [⟨2, [("a", [DataValue.int 1 0, DataValue.int 1 1])]⟩,
      ⟨1, [("a", [DataValue.int 1 0])]⟩]
    [([1, 0], ([⟨countSpec, 2⟩], [DataValue.int 1 0])),
      ([1, 1], ([⟨countSpec, 1⟩], [DataValue.int 1 1]))]
    rfl 0 countSpec rfl id (fun _ _ _ => rfl) rfl

theorem colByNameD_length {b : Block} (hwf : b.WF) {nm : String}
    (hnm : nm ∈ columnNames b) : (colByNameD b nm).length = b.numRows := by
  unfold colByNameD
  cases hf : b.columns.find? (fun c => c.1 == nm) with
  | none =>
    exfalso
    obtain ⟨c, hc, hcn⟩ := List.mem_map.mp hnm
    exact (List.find?_eq_none.mp hf c hc) (beq_iff_eq.mpr hcn)
  | some c => exact hwf c (List.mem_of_find?_eq_some hf)

theorem find?_name_zipWith :
    ∀ (c1s c2s : List (String × List DataValue)), c1s.map (·.1) = c2s.map (·.1) →
      ∀ nm : String,
        (match (List.zipWith (fun c1 c2 => (c1.1, c1.2 ++ c2.2)) c1s c2s).find?
            (fun c => c.1 == nm) with
          | some c => c.2
          | none => []) =
          (match c1s.find? (fun c => c.1 == nm) with
            | some c => c.2
            | none => []) ++
          (match c2s.find? (fun c => c.1 == nm) with
            | some c => c.2
            | none => []) := by
  intro c1s
  induction c1s with
  | nil =>
    intro c2s hm nm
    cases c2s with
    | nil => rfl
    | cons c2 rest2 => exact absurd hm (by simp)
  | cons c1 rest1 ih =>
    intro c2s hm nm
    cases c2s with
    | nil => exact absurd hm (by simp)
    | cons c2 rest2 =>
      simp only [List.map_cons, List.cons.injEq] at hm
      obtain ⟨hname, hrest⟩ := hm
      rw [List.zipWith_cons_cons]
      by_cases hname1 : (c1.1 : String) = nm
      · rw [@List.find?_cons_of_pos _ (fun c => c.1 == nm) (c1.1, c1.2 ++ c2.2) _
            (by simpa using hname1),
          @List.find?_cons_of_pos _ (fun c => c.1 == nm) c1 rest1 (by simpa using hname1),
          @List.find?_cons_of_pos _ (fun c => c.1 == nm) c2 rest2
            (by show (c2.1 == nm) = true; rw [← hname]; simpa using hname1)]
      · rw [@List.find?_cons_of_neg _ (fun c => c.1 == nm) (c1.1, c1.2 ++ c2.2) _
            (by simpa using hname1),
          @List.find?_cons_of_neg _ (fun c => c.1 == nm) c1 rest1 (by simpa using hname1),
          @List.find?_cons_of_neg _ (fun c => c.1 == nm) c2 rest2
            (by show ¬ (c2.1 == nm) = true; rw [← hname]; simpa using hname1)]
        exact ih rest2 hrest nm

theorem colByNameD_vconcat (b1 b2 : Block) (hnm : columnNames b1 = columnNames b2)
    (nm : String) :
    colByNameD (vconcat b1 b2) nm = colByNameD b1 nm ++ colByNameD b2 nm := by
  exact find?_name_zipWith b1.columns b2.columns hnm nm

theorem colCell_append_left {c1 c2 : List DataValue} {r : Nat} (h : r < c1.length) :
    colCell (c1 ++ c2) r = colCell c1 r := by
  unfold colCell
  rw [List.getD_eq_getElem?_getD, List.getD_eq_getElem?_getD, List.getElem?_append,
    if_pos h]

theorem colCell_append_shift {c1 c2 : List DataValue} {n1 : Nat} (h : c1.length = n1)
    (j : Nat) : colCell (c1 ++ c2) (n1 + j) = colCell c2 j := by
  unfold colCell
  rw [List.getD_eq_getElem?_getD, List.getD_eq_getElem?_getD,
    List.getElem?_append_right (by omega),
    show n1 + j - c1.length = j from by omega]

theorem rowValues_vconcat_left {b1 b2 : Block} {names : List String}
    (hwf1 : b1.WF) (hnm : columnNames b1 = columnNames b2)
    (hn : ∀ nm ∈ names, nm ∈ columnNames b1) {r : Nat} (hr : r < b1.numRows) :
    rowValues (groupColsD (vconcat b1 b2) names) r =
      rowValues (groupColsD b1 names) r := by
  unfold rowValues groupColsD
  rw [List.map_map, List.map_map]
  apply List.map_congr_left
  intro nm hnmm
  show colCell (colByNameD (vconcat b1 b2) nm) r = colCell (colByNameD b1 nm) r
  rw [colByNameD_vconcat b1 b2 hnm nm,
    colCell_append_left (by rw [colByNameD_length hwf1 (hn nm hnmm)]; exact hr)]

theorem rowValues_vconcat_right {b1 b2 : Block} {names : List String}
    (hwf1 : b1.WF) (hnm : columnNames b1 = columnNames b2)
    (hn : ∀ nm ∈ names, nm ∈ columnNames b1) (j : Nat) :
    rowValues (groupColsD (vconcat b1 b2) names) (b1.numRows + j) =
      rowValues (groupColsD b2 names) j := by
  unfold rowValues groupColsD
  rw [List.map_map, List.map_map]
  apply List.map_congr_left
  intro nm hnmm
  show colCell (colByNameD (vconcat b1 b2) nm) (b1.numRows + j) =
    colCell (colByNameD b2 nm) j
  rw [colByNameD_vconcat b1 b2 hnm nm,
    colCell_append_shift (colByNameD_length hwf1 (hn nm hnmm)) j]

theorem rowKey_vconcat_left {b1 b2 : Block} {names : List String}
    (hwf1 : b1.WF) (hnm : columnNames b1 = columnNames b2)
    (hn : ∀ nm ∈ names, nm ∈ columnNames b1) {r : Nat} (hr : r < b1.numRows) :
    rowKey (groupColsD (vconcat b1 b2) names) r = rowKey (groupColsD b1 names) r := by
  rw [rowKey_eq_encodeRow, rowKey_eq_encodeRow, rowValues_vconcat_left hwf1 hnm hn hr]

theorem rowKey_vconcat_right {b1 b2 : Block} {names : List String}
    (hwf1 : b1.WF) (hnm : columnNames b1 = columnNames b2)
    (hn : ∀ nm ∈ names, nm ∈ columnNames b1) (j : Nat) :
    rowKey (groupColsD (vconcat b1 b2) names) (b1.numRows + j) =
      rowKey (groupColsD b2 names) j := by
  rw [rowKey_eq_encodeRow, rowKey_eq_encodeRow, rowValues_vconcat_right hwf1 hnm hn j]

theorem rowsForKey_lt (cols : List (List DataValue)) (n : Nat) (k : List Nat) :
    ∀ r ∈ rowsForKey cols n k, r < n := by
  intro r hr
  unfold rowsForKey at hr
  exact List.mem_range.mp (List.mem_filter.mp hr).1

theorem rowsForKey_vconcat {b1 b2 : Block} {names : List String}
    (hwf1 : b1.WF) (hnm : columnNames b1 = columnNames b2)
    (hn : ∀ nm ∈ names, nm ∈ columnNames b1) (k : List Nat) :
    rowsForKey (groupColsD (vconcat b1 b2) names) (vconcat b1 b2).numRows k =
      rowsForKey (groupColsD b1 names) b1.numRows k ++
        (rowsForKey (groupColsD b2 names) b2.numRows k).map
          (fun j => b1.numRows + j) := by
  unfold rowsForKey
  show (List.range (b1.numRows + b2.numRows)).filter _ = _
  rw [List.range_add, List.filter_append, List.filter_map]
  congr 1
  · apply List.filter_congr
    intro r hrr
    have hr : r < b1.numRows := List.mem_range.mp hrr
    rw [rowKey_vconcat_left hwf1 hnm hn hr]
  · congr 1
    apply List.filter_congr
    intro j hj
    show (rowKey (groupColsD (vconcat b1 b2) names) (b1.numRows + j) == k) = _
    rw [rowKey_vconcat_right hwf1 hnm hn j]

theorem isEmpty_append_map {l1 l2 : List Nat} {f : Nat → Nat} :
    (l1 ++ l2.map f).isEmpty = (l1.isEmpty && l2.isEmpty) := by
  cases l1 <;> cases l2 <;> rfl

theorem columns_length_eq_of_names {b1 b2 : Block} (hnm : columnNames b1 = columnNames b2) :
    b1.columns.length = b2.columns.length := by
  have := congrArg List.length hnm
  simpa [columnNames] using this

theorem take_vconcat (b1 b2 : Block) (hwf1 : b1.WF)
    (hnm : columnNames b1 = columnNames b2) (idx1 idx2 : List Nat)
    (h1 : ∀ i ∈ idx1, i < b1.numRows) :
    block_take_by_indices (vconcat b1 b2) (idx1 ++ idx2.map (fun j => b1.numRows + j)) =
      vconcat (block_take_by_indices b1 idx1) (block_take_by_indices b2 idx2) := by
  have hcols : ∀ (c1s c2s : List (String × List DataValue)),
      (∀ c ∈ c1s, c.2.length = b1.numRows) → c1s.length = c2s.length →
      (List.zipWith (fun c1 c2 => (c1.1, c1.2 ++ c2.2)) c1s c2s).map
          (fun c => (c.1, (idx1 ++ idx2.map (fun j => b1.numRows + j)).map
            (fun i => colCell c.2 i))) =
        List.zipWith (fun c1 c2 => (c1.1, c1.2 ++ c2.2))
          (c1s.map (fun c => (c.1, idx1.map (fun i => colCell c.2 i))))
          (c2s.map (fun c => (c.1, idx2.map (fun i => colCell c.2 i)))) := by
    intro c1s
    induction c1s with
    | nil => intro c2s _ _; rfl
    | cons c1 r1 ih =>
      intro c2s hwf hlen
      cases c2s with
      | nil => exact absurd hlen (by simp)
      | cons c2 r2 =>
        rw [List.zipWith_cons_cons, List.map_cons, List.map_cons, List.map_cons,
          List.zipWith_cons_cons]
        congr 1
        · show (c1.1, (idx1 ++ idx2.map (fun j => b1.numRows + j)).map
              (fun i => colCell (c1.2 ++ c2.2) i)) =
            (c1.1, idx1.map (fun i => colCell c1.2 i) ++
              idx2.map (fun i => colCell c2.2 i))
          rw [List.map_append, List.map_map]
          have ha : List.map (fun i => colCell (c1.2 ++ c2.2) i) idx1 =
              List.map (fun i => colCell c1.2 i) idx1 :=
            List.map_congr_left (fun i hi =>
              colCell_append_left (by rw [hwf c1 (by simp)]; exact h1 i hi))
          have hb : List.map ((fun i => colCell (c1.2 ++ c2.2) i) ∘
                fun j => b1.numRows + j) idx2 =
              List.map (fun i => colCell c2.2 i) idx2 :=
            List.map_congr_left (fun j hj => colCell_append_shift (hwf c1 (by simp)) j)
          rw [ha, hb]
        · exact ih r2 (fun c hc => hwf c (by simp [hc])) (by simpa using hlen)
  have h2 : b1.columns.length = b2.columns.length := columns_length_eq_of_names hnm
  unfold block_take_by_indices vconcat
  rw [Block.mk.injEq]
  exact ⟨by simp, hcols b1.columns b2.columns hwf1 h2⟩

theorem zipWith_append_nil_right :
    ∀ (c1s c2s : List (String × List DataValue)), c1s.length = c2s.length →
      List.zipWith (fun c1 c2 => (c1.1, c1.2 ++ c2.2)) c1s
        (c2s.map (fun c => (c.1, ([] : List DataValue)))) = c1s := by
  intro c1s
  induction c1s with
  | nil => intro c2s _; rfl
  | cons c1 r1 ih =>
    intro c2s hlen
    cases c2s with
    | nil => exact absurd hlen (by simp)
    | cons c2 r2 =>
      rw [List.map_cons, List.zipWith_cons_cons, ih r2 (by simpa using hlen)]
      rw [List.append_nil]

theorem zipWith_nil_append_left :
    ∀ (c1s c2s : List (String × List DataValue)), c1s.map (·.1) = c2s.map (·.1) →
      List.zipWith (fun c1 c2 => (c1.1, c1.2 ++ c2.2))
        (c1s.map (fun c => (c.1, ([] : List DataValue)))) c2s = c2s := by
  intro c1s
  induction c1s with
  | nil =>
    intro c2s hm
    cases c2s with
    | nil => rfl
    | cons c2 r2 => exact absurd hm (by simp)
  | cons c1 r1 ih =>
    intro c2s hm
    cases c2s with
    | nil => exact absurd hm (by simp)
    | cons c2 r2 =>
      simp only [List.map_cons, List.cons.injEq] at hm
      rw [List.map_cons, List.zipWith_cons_cons, ih r2 hm.2]
      rw [List.nil_append, hm.1]

theorem vconcat_take_nil_right (b1 b2 : Block) (hnm : columnNames b1 = columnNames b2)
    (idx1 : List Nat) :
    vconcat (block_take_by_indices b1 idx1) (block_take_by_indices b2 []) =
      block_take_by_indices b1 idx1 := by
  unfold vconcat block_take_by_indices
  rw [Block.mk.injEq]
  constructor
  · simp
  · exact zipWith_append_nil_right (b1.columns.map
      (fun c => (c.1, idx1.map (fun i => colCell c.2 i)))) b2.columns
      (by rw [List.length_map]; exact columns_length_eq_of_names hnm)

theorem vconcat_take_nil_left (b1 b2 : Block) (hnm : columnNames b1 = columnNames b2)
    (idx2 : List Nat) :
    vconcat (block_take_by_indices b1 []) (block_take_by_indices b2 idx2) =
      block_take_by_indices b2 idx2 := by
  unfold vconcat block_take_by_indices
  rw [Block.mk.injEq]
  constructor
  · simp
  · exact zipWith_nil_append_left b1.columns
      (b2.columns.map (fun c => (c.1, idx2.map (fun i => colCell c.2 i))))
      (by rw [List.map_map]; exact hnm)

theorem takeForKey_vconcat {b1 b2 : Block} {names : List String} (hwf1 : b1.WF)
    (hnm : columnNames b1 = columnNames b2) (hn : ∀ nm ∈ names, nm ∈ columnNames b1)
    (k : List Nat) :
    takeForKey names (vconcat b1 b2) k =
      vconcat (takeForKey names b1 k) (takeForKey names b2 k) := by
  unfold takeForKey
  rw [rowsForKey_vconcat hwf1 hnm hn k]
  exact take_vconcat b1 b2 hwf1 hnm _ _ (rowsForKey_lt _ _ _)

theorem argColsD_vconcat (tb1 tb2 : Block) (hm : columnNames tb1 = columnNames tb2) :
    ∀ args : List String,
      argColsD (vconcat tb1 tb2) args =
        List.zipWith (fun x y => x ++ y) (argColsD tb1 args) (argColsD tb2 args) := by
  intro args
  induction args with
  | nil => rfl
  | cons a rest ih =>
    unfold argColsD at ih ⊢
    rw [List.map_cons, List.map_cons, List.map_cons, List.zipWith_cons_cons,
      colByNameD_vconcat tb1 tb2 hm a, ih]

theorem contribBlocks_singleton (names : List String) (k : List Nat) (x : Block) :
    contribBlocks names k [x] =
      if occursIn names x k then [takeForKey names x k] else [] := by
  unfold contribBlocks
  rw [List.filter_cons]
  by_cases h : occursIn names x k <;> simp [h]

theorem contribBlocks_pair (names : List String) (k : List Nat) (x y : Block) :
    contribBlocks names k [x, y] =
      (if occursIn names x k then [takeForKey names x k] else []) ++
        (if occursIn names y k then [takeForKey names y k] else []) := by
  unfold contribBlocks
  rw [List.filter_cons, List.filter_cons]
  by_cases hx : occursIn names x k <;> by_cases hy : occursIn names y k <;>
    simp [hx, hy]

theorem firstKeyValues_vconcat {b1 b2 : Block} {names : List String} (hwf1 : b1.WF)
    (hnm : columnNames b1 = columnNames b2) (hn : ∀ nm ∈ names, nm ∈ columnNames b1)
    (k : List Nat) :
    firstKeyValues names k [vconcat b1 b2] = firstKeyValues names k [b1, b2] := by
  by_cases hb1 : occursIn names b1 k
  · obtain ⟨r, rs, hr1⟩ : ∃ r rs,
        rowsForKey (groupColsD b1 names) b1.numRows k = r :: rs := by
      unfold occursIn at hb1
      cases hx : rowsForKey (groupColsD b1 names) b1.numRows k with
      | nil => rw [hx] at hb1; simp at hb1
      | cons r rs => exact ⟨r, rs, rfl⟩
    have hoccC : occursIn names (vconcat b1 b2) k = true := by
      unfold occursIn
      rw [rowsForKey_vconcat hwf1 hnm hn k, hr1]
      rfl
    simp only [firstKeyValues, hoccC, hb1, if_true]
    rw [rowsForKey_vconcat hwf1 hnm hn k, hr1]
    show rowValues (groupColsD (vconcat b1 b2) names) r =
      rowValues (groupColsD b1 names) r
    exact rowValues_vconcat_left hwf1 hnm hn
      (rowsForKey_lt _ _ _ r (by rw [hr1]; simp))
  · have hr1nil : rowsForKey (groupColsD b1 names) b1.numRows k = [] := by
      unfold occursIn at hb1
      cases hx : rowsForKey (groupColsD b1 names) b1.numRows k with
      | nil => rfl
      | cons r rs => rw [hx] at hb1; simp at hb1
    by_cases hb2 : occursIn names b2 k
    · obtain ⟨j, js, hr2⟩ : ∃ j js,
          rowsForKey (groupColsD b2 names) b2.numRows k = j :: js := by
        unfold occursIn at hb2
        cases hx : rowsForKey (groupColsD b2 names) b2.numRows k with
        | nil => rw [hx] at hb2; simp at hb2
        | cons j js => exact ⟨j, js, rfl⟩
      have hoccC : occursIn names (vconcat b1 b2) k = true := by
        unfold occursIn
        rw [rowsForKey_vconcat hwf1 hnm hn k, hr1nil, hr2]
        rfl
      simp only [firstKeyValues, hoccC, hb1, hb2, if_true, if_false]
      rw [rowsForKey_vconcat hwf1 hnm hn k, hr1nil, hr2]
      show rowValues (groupColsD (vconcat b1 b2) names) (b1.numRows + j) =
        rowValues (groupColsD b2 names) j
      exact rowValues_vconcat_right hwf1 hnm hn j
    · have hoccC : occursIn names (vconcat b1 b2) k = false := by
        unfold occursIn at hb2 ⊢
        rw [rowsForKey_vconcat hwf1 hnm hn k, hr1nil]
        cases hx : rowsForKey (groupColsD b2 names) b2.numRows k with
        | nil => rfl
        | cons j js => rw [hx] at hb2; simp at hb2
      simp [firstKeyValues, hoccC, hb1, hb2]

/-- C3: batch-size invariance.  Under the accumulator contract (one
batch-accumulate over vertically concatenated argument columns equals two
successive batch-accumulate calls), feeding the single concatenated batch
and feeding its two halves sequentially leave the shared table with
identical entries for every group key — identical accumulator states and
key values, hence identical finalized results. -/
theorem c3_batch_split_invariance {σ : Type} (specs : List (AggSpec σ))
    (names : List String) (b1 b2 : Block) (t1 t2 : GroupFuncTable σ)
    (hwf1 : b1.WF) (hnm : columnNames b1 = columnNames b2)
    (hn : ∀ nm ∈ names, nm ∈ columnNames b1)
    (hacc : ∀ sp ∈ specs, ∀ (s : σ) (cols1 cols2 : List (List DataValue)) (r1 r2 : Nat),
      sp.accumulate s (List.zipWith (fun x y => x ++ y) cols1 cols2) (r1 + r2) =
        sp.accumulate (sp.accumulate s cols1 r1) cols2 r2)
    (h1 : processBlocks specs names [] [vconcat b1 b2] = .ok t1)
    (h2 : processBlocks specs names [] [b1, b2] = .ok t2) :
    ∀ k, lookupKey t1 k = lookupKey t2 k := by
  intro k
  rw [processBlocks_lookup_model h1 k, processBlocks_lookup_model h2 k]
  have hfk := firstKeyValues_vconcat hwf1 hnm hn k
  have hct : columnNames (takeForKey names b1 k) = columnNames (takeForKey names b2 k) := by
    unfold takeForKey
    rw [columnNames_take, columnNames_take]
    exact hnm
  have hoccCgen : occursIn names (vconcat b1 b2) k =
      (occursIn names b1 k || occursIn names b2 k) := by
    unfold occursIn
    rw [rowsForKey_vconcat hwf1 hnm hn k, isEmpty_append_map, Bool.not_and]
  by_cases hb1 : occursIn names b1 k
  · by_cases hb2 : occursIn names b2 k
    · have hcL : contribBlocks names k [vconcat b1 b2] =
          [vconcat (takeForKey names b1 k) (takeForKey names b2 k)] := by
        rw [contribBlocks_singleton, hoccCgen, hb1, hb2,
          takeForKey_vconcat hwf1 hnm hn k]
        rfl
      have hcR : contribBlocks names k [b1, b2] =
          [takeForKey names b1 k, takeForKey names b2 k] := by
        rw [contribBlocks_pair, hb1, hb2]
        rfl
      have hslots : specs.map (fun sp => slotFold sp
          [vconcat (takeForKey names b1 k) (takeForKey names b2 k)]) =
          specs.map (fun sp => slotFold sp
            [takeForKey names b1 k, takeForKey names b2 k]) := by
        apply List.map_congr_left
        intro sp hsp
        unfold slotFold
        rw [List.foldl_cons, List.foldl_nil, List.foldl_cons, List.foldl_cons,
          List.foldl_nil]
        rw [show (vconcat (takeForKey names b1 k) (takeForKey names b2 k)).numRows =
          (takeForKey names b1 k).numRows + (takeForKey names b2 k).numRows from rfl]
        rw [argColsD_vconcat _ _ hct sp.args]
        rw [hacc sp hsp sp.init (argColsD (takeForKey names b1 k) sp.args)
          (argColsD (takeForKey names b2 k) sp.args) (takeForKey names b1 k).numRows
          (takeForKey names b2 k).numRows]
      unfold modelEntry
      rw [hcL, hcR, hfk, hslots]
      rfl
    · have hb2' : occursIn names b2 k = false := by
        cases hx : occursIn names b2 k with
        | true => exact absurd hx hb2
        | false => rfl
      have hr2nil : rowsForKey (groupColsD b2 names) b2.numRows k = [] := by
        unfold occursIn at hb2'
        cases hx : rowsForKey (groupColsD b2 names) b2.numRows k with
        | nil => rfl
        | cons j js => rw [hx] at hb2'; simp at hb2'
      have hcL : contribBlocks names k [vconcat b1 b2] = [takeForKey names b1 k] := by
        rw [contribBlocks_singleton, hoccCgen, hb1, hb2',
          takeForKey_vconcat hwf1 hnm hn k,
          show takeForKey names b2 k = block_take_by_indices b2 [] from by
            unfold takeForKey
            rw [hr2nil],
          show takeForKey names b1 k = block_take_by_indices b1
            (rowsForKey (groupColsD b1 names) b1.numRows k) from rfl,
          vconcat_take_nil_right b1 b2 hnm _]
        rfl
      have hcR : contribBlocks names k [b1, b2] = [takeForKey names b1 k] := by
        rw [contribBlocks_pair, hb1, hb2']
        rfl
      unfold modelEntry
      rw [hcL, hcR, hfk]
  · have hb1' : occursIn names b1 k = false := by
      cases hx : occursIn names b1 k with
      | true => exact absurd hx hb1
      | false => rfl
    have hr1nil : rowsForKey (groupColsD b1 names) b1.numRows k = [] := by
      unfold occursIn at hb1'
      cases hx : rowsForKey (groupColsD b1 names) b1.numRows k with
      | nil => rfl
      | cons r rs => rw [hx] at hb1'; simp at hb1'
    by_cases hb2 : occursIn names b2 k
    · have hcL : contribBlocks names k [vconcat b1 b2] = [takeForKey names b2 k] := by
        rw [contribBlocks_singleton, hoccCgen, hb1', hb2,
          takeForKey_vconcat hwf1 hnm hn k,
          show takeForKey names b1 k = block_take_by_indices b1 [] from by
            unfold takeForKey
            rw [hr1nil],
          show takeForKey names b2 k = block_take_by_indices b2
            (rowsForKey (groupColsD b2 names) b2.numRows k) from rfl,
          vconcat_take_nil_left b1 b2 hnm _]
        rfl
      have hcR : contribBlocks names k [b1, b2] = [takeForKey names b2 k] := by
        rw [contribBlocks_pair, hb1', hb2]
        rfl
      unfold modelEntry
      rw [hcL, hcR, hfk]
    · have hb2' : occursIn names b2 k = false := by
        cases hx : occursIn names b2 k with
        | true => exact absurd hx hb2
        | false => rfl
      have hcL : contribBlocks names k [vconcat b1 b2] = [] := by
        rw [contribBlocks_singleton, hoccCgen, hb1', hb2']
        rfl
      have hcR : contribBlocks names k [b1, b2] = [] := by
        rw [contribBlocks_pair, hb1', hb2']
        rfl
      unfold modelEntry
      rw [hcL, hcR]
      rfl

/-- Witness for C3: one 3-row batch against its 1-row / 2-row split, with a
COUNT aggregate; the resulting tables agree on every key. -/
theorem c3_batch_split_invariance_witness :
    lookupKey
        ([([1, 5], ([(⟨countSpec, 2⟩ : AggSlot Nat)], [DataValue.int 1 5])),
          ([1, 6], ([⟨countSpec, 1⟩], [DataValue.int 1 6]))] : GroupFuncTable Nat) [1, 5] =
      lookupKey
        ([([1, 5], ([(⟨countSpec, 2⟩ : AggSlot Nat)], [DataValue.int 1 5])),
          ([1, 6], ([⟨countSpec, 1⟩], [DataValue.int 1 6]))] : GroupFuncTable Nat) [1, 5] := by
  exact c3_batch_split_invariance [countSpec] ["a"]
    ⟨1, [("a", [DataValue.int 1 5])]⟩
    ⟨2, [("a", [DataValue.int 1 5, DataValue.int 1 6])]⟩
    [([1, 5], ([⟨countSpec, 2⟩], [DataValue.int 1 5])),
      ([1, 6], ([⟨countSpec, 1⟩], [DataValue.int 1 6]))]
    [([1, 5], ([⟨countSpec, 2⟩], [DataValue.int 1 5])),
      ([1, 6], ([⟨countSpec, 1⟩], [DataValue.int 1 6]))]
    (by decide) (by decide) (by decide)
    (by
      intro sp hsp s cols1 cols2 r1 r2
      rcases List.mem_singleton.mp hsp with rfl
      show s + (r1 + r2) = s + r1 + r2
      omega)
    rfl rfl [1, 5]

end GroupByPartial
